import Mathlib

/-!
Verification of the tiered-cache / rate-limited fetch pipeline of the
`market_analyzer_tv` repository.  The Python sources (`models.py`,
`cache_manager.py`, `firestore_storage.py`, `gcs_storage.py`,
`rate_limiter.py`, `data_fetcher.py`) are shallowly embedded below:
pure functions become Lean functions, stateful code becomes explicit
state passing, Python exceptions become `Option`/`Except`, Python
strings become lists of characters, Python floats become rationals,
and Unix timestamps become integers (Python's floor division `//` is
`Int.fdiv`).
-/

set_option autoImplicit false

namespace MarketAnalyzer

/-- Python strings, modelled at the character level. -/
abbrev Str := List Char

/-- Shorthand turning a Lean string literal into the character-list model. -/
def str (s : String) : Str := s.data

/-! ## models.py -/

/-- `models.Interval`: the closed enumeration of supported timeframes. -/
inductive Interval where
  | oneMinute
  | fiveMinutes
  | fifteenMinutes
  | thirtyMinutes
  | oneHour
  | fourHours
  | oneDay
  | oneWeek
  | oneMonth
deriving DecidableEq, Repr

/-- The `.value` of each `Interval` member (`"1m"`, ..., `"1M"`).
Note that `ONE_WEEK.value` is the lowercase `"1w"`. -/
def Interval.value : Interval → Str
  | .oneMinute => str "1m"
  | .fiveMinutes => str "5m"
  | .fifteenMinutes => str "15m"
  | .thirtyMinutes => str "30m"
  | .oneHour => str "1h"
  | .fourHours => str "4h"
  | .oneDay => str "1d"
  | .oneWeek => str "1w"
  | .oneMonth => str "1M"

/-- `Interval(s)` in Python: the member whose `.value` is `s`, else a
`ValueError` (modelled by `none`). -/
def Interval.ofValue (s : Str) : Option Interval :=
  if s = str "1m" then some .oneMinute
  else if s = str "5m" then some .fiveMinutes
  else if s = str "15m" then some .fifteenMinutes
  else if s = str "30m" then some .thirtyMinutes
  else if s = str "1h" then some .oneHour
  else if s = str "4h" then some .fourHours
  else if s = str "1d" then some .oneDay
  else if s = str "1w" then some .oneWeek
  else if s = str "1M" then some .oneMonth
  else none

/-- `models.Bar`: one OHLCV bar.  Prices/volume are Python floats,
modelled as exact rationals (no claim here depends on rounding). -/
structure Bar where
  timestamp : Int
  «open» : ℚ
  high : ℚ
  low : ℚ
  close : ℚ
  volume : ℚ
deriving DecidableEq, Repr

/-- `models.CacheKey`. -/
structure CacheKey where
  symbol : Str
  screener : Str
  exchange : Str
  interval : Interval
deriving DecidableEq, Repr

/-- `CacheKey.to_string`: `f"{screener}:{exchange}:{symbol}:{interval.value}"`. -/
def CacheKey.toStr (k : CacheKey) : Str :=
  k.screener ++ (':' :: (k.exchange ++ (':' :: (k.symbol ++ (':' :: k.interval.value)))))

/-- Python `s.split(sep)` for a single-character separator. -/
def splitOnChar (c : Char) : Str → List Str
  | [] => [[]]
  | a :: rest =>
    if a = c then [] :: splitOnChar c rest
    else
      match splitOnChar c rest with
      | [] => [[a]]
      | s :: ss => (a :: s) :: ss

/-- `CacheKey.from_string`: split on `":"`, require exactly 4 parts,
parse the interval; any failure raises `ValueError` (modelled by `none`). -/
def CacheKey.fromStr (s : Str) : Option CacheKey :=
  match splitOnChar ':' s with
  | [scr, ex, sym, iv] =>
    (Interval.ofValue iv).map fun i =>
      { screener := scr, exchange := ex, symbol := sym, interval := i }
  | _ => none

/-- `models.TimeRange` (inclusive endpoints). -/
structure TimeRange where
  start_timestamp : Int
  end_timestamp : Int
deriving DecidableEq, Repr

/-- `TimeRange.contains`. -/
def TimeRange.containsTs (r : TimeRange) (timestamp : Int) : Prop :=
  r.start_timestamp ≤ timestamp ∧ timestamp ≤ r.end_timestamp

/-- `models.DataGap`. -/
structure DataGap where
  cache_key : CacheKey
  time_range : TimeRange
deriving DecidableEq, Repr

/-! ## data_fetcher.py : interval maps -/

/-- The `tradingview_ta` interval constants used by the fetcher. -/
inductive TVInterval where
  | oneMinute
  | fiveMinutes
  | fifteenMinutes
  | thirtyMinutes
  | oneHour
  | fourHours
  | oneDay
  | oneWeek
  | oneMonth
deriving DecidableEq, Repr

/-- `TV_INTERVAL_MAP`: total over `Interval`, so the `.get` default
(`INTERVAL_1_DAY`) is never taken and the dict is a plain function. -/
def TV_INTERVAL_MAP : Interval → TVInterval
  | .oneMinute => .oneMinute
  | .fiveMinutes => .fiveMinutes
  | .fifteenMinutes => .fifteenMinutes
  | .thirtyMinutes => .thirtyMinutes
  | .oneHour => .oneHour
  | .fourHours => .fourHours
  | .oneDay => .oneDay
  | .oneWeek => .oneWeek
  | .oneMonth => .oneMonth

/-- `STRING_INTERVAL_MAP` as the literal key/value list from
`data_fetcher.py` (note the uppercase `"1W"` key). -/
def STRING_INTERVAL_MAP : List (Str × Interval) :=
  [ (str "1m", .oneMinute)
  , (str "5m", .fiveMinutes)
  , (str "15m", .fifteenMinutes)
  , (str "30m", .thirtyMinutes)
  , (str "1h", .oneHour)
  , (str "4h", .fourHours)
  , (str "1d", .oneDay)
  , (str "1W", .oneWeek)
  , (str "1M", .oneMonth) ]

/-- Python `dict.get(key)` over an association list. -/
def lookupStr (s : Str) : List (Str × Interval) → Option Interval
  | [] => none
  | p :: rest => if p.1 = s then some p.2 else lookupStr s rest

/-- `STRING_INTERVAL_MAP.get(interval, Interval.ONE_DAY)` — the interval
resolution performed by `get_current_bar`, `get_analysis_with_cache`
and `_get_cached_analysis_only`. -/
def resolveIntervalString (s : Str) : Interval :=
  (lookupStr s STRING_INTERVAL_MAP).getD Interval.oneDay

/-- The `CacheKey` built by the fetcher's public operations from a
request's raw string arguments. -/
def requestCacheKey (symbol screener exchange : Str) (interval : Str) : CacheKey :=
  { symbol := symbol, screener := screener, exchange := exchange
  , interval := resolveIntervalString interval }

/-- The TradingView interval handed to the provider for a raw interval
string: `TV_INTERVAL_MAP.get(interval_enum, TVInterval.INTERVAL_1_DAY)`
(the map is total, so the default is dead). -/
def providerInterval (interval : Str) : TVInterval :=
  TV_INTERVAL_MAP (resolveIntervalString interval)

/-! ## The Python idiom `{bar.timestamp: bar for bar in bars}.values()`

Used by `CacheManager.get` and `GCSStorage.store` to merge and
deduplicate bar lists by timestamp (later occurrences win).  A Python
dict is modelled as an association list with unique keys: assigning to
an existing key replaces the value in place, assigning a fresh key
appends; `.values()` is the second projection in insertion order. -/

/-- One dict assignment `d[b.timestamp] = b`. -/
def upsert (d : List (Int × Bar)) (b : Bar) : List (Int × Bar) :=
  if b.timestamp ∈ d.map Prod.fst then
    d.map fun p => if p.1 = b.timestamp then (p.1, b) else p
  else d ++ [(b.timestamp, b)]

/-- `{bar.timestamp: bar for bar in bars}`. -/
def dictByTimestamp (bars : List Bar) : List (Int × Bar) :=
  bars.foldl upsert []

/-- `{bar.timestamp: bar for bar in bars}.values()`. -/
def dedupByTimestamp (bars : List Bar) : List Bar :=
  (dictByTimestamp bars).map Prod.snd

/-- Dict lookup by timestamp key. -/
def findTs (t : Int) : List (Int × Bar) → Option Bar
  | [] => none
  | p :: d => if p.1 = t then some p.2 else findTs t d

/-- The last bar of `l` carrying timestamp `t`, if any — the value a
timestamp-keyed dict comprehension over `l` associates to `t`. -/
def lastWithTs (t : Int) (l : List Bar) : Option Bar :=
  l.reverse.find? fun b => decide (b.timestamp = t)

theorem findTs_append (t : Int) (d1 d2 : List (Int × Bar)) :
    findTs t (d1 ++ d2) =
      match findTs t d1 with
      | some x => some x
      | none => findTs t d2 := by
  induction d1 with
  | nil => rfl
  | cons p d1' ih =>
    by_cases hp : p.1 = t
    · simp [findTs, hp]
    · simp [findTs, hp, ih]

theorem findTs_eq_none_of_not_mem (t : Int) (d : List (Int × Bar))
    (h : t ∉ d.map Prod.fst) : findTs t d = none := by
  induction d with
  | nil => rfl
  | cons p d' ih =>
    have hp : ¬ p.1 = t := fun hpt => h (by simp [hpt])
    have h' : t ∉ d'.map Prod.fst := fun hm => h (by simp [hm])
    simp [findTs, hp, ih h']

theorem findTs_mapReplace_ne (t : Int) (b : Bar) (d : List (Int × Bar))
    (hne : t ≠ b.timestamp) :
    findTs t (d.map fun p => if p.1 = b.timestamp then (p.1, b) else p) =
      findTs t d := by
  induction d with
  | nil => rfl
  | cons p d' ih =>
    rw [List.map_cons]
    by_cases hp : p.1 = b.timestamp
    · have hpt : ¬ p.1 = t := fun h => hne (by rw [← h, hp])
      rw [if_pos hp]
      show (if p.1 = t then some b else _) = _
      rw [if_neg hpt]
      show _ = (if p.1 = t then some p.2 else findTs t d')
      rw [if_neg hpt]
      exact ih
    · by_cases hpt : p.1 = t
      · rw [if_neg hp]
        show (if p.1 = t then some p.2 else _) = (if p.1 = t then some p.2 else _)
        rw [if_pos hpt, if_pos hpt]
      · rw [if_neg hp]
        show (if p.1 = t then some p.2 else _) = (if p.1 = t then some p.2 else _)
        rw [if_neg hpt, if_neg hpt]
        exact ih

theorem findTs_mapReplace_eq (b : Bar) (d : List (Int × Bar))
    (hmem : b.timestamp ∈ d.map Prod.fst) :
    findTs b.timestamp (d.map fun p => if p.1 = b.timestamp then (p.1, b) else p) =
      some b := by
  induction d with
  | nil => simp at hmem
  | cons p d' ih =>
    rw [List.map_cons]
    by_cases hp : p.1 = b.timestamp
    · rw [if_pos hp]
      show (if p.1 = b.timestamp then some b else _) = some b
      rw [if_pos hp]
    · have hmem' : b.timestamp ∈ d'.map Prod.fst := by
        rw [List.map_cons] at hmem
        rcases List.mem_cons.mp hmem with h | h
        · exact absurd h.symm hp
        · exact h
      rw [if_neg hp]
      show (if p.1 = b.timestamp then some p.2 else _) = some b
      rw [if_neg hp]
      exact ih hmem'

theorem findTs_upsert (t : Int) (b : Bar) (d : List (Int × Bar)) :
    findTs t (upsert d b) = if t = b.timestamp then some b else findTs t d := by
  unfold upsert
  by_cases hmem : b.timestamp ∈ d.map Prod.fst
  · rw [if_pos hmem]
    by_cases ht : t = b.timestamp
    · subst ht
      simp [findTs_mapReplace_eq b d hmem]
    · simp [findTs_mapReplace_ne t b d ht, ht]
  · rw [if_neg hmem, findTs_append]
    by_cases ht : t = b.timestamp
    · subst ht
      rw [findTs_eq_none_of_not_mem _ d hmem]
      simp [findTs]
    · have hbt : ¬ b.timestamp = t := fun h => ht h.symm
      have h1 : findTs t [(b.timestamp, b)] = none := by
        simp [findTs, hbt]
      cases hfd : findTs t d with
      | some x => simp [ht]
      | none => simp [h1, ht]

theorem keys_upsert_of_mem (b : Bar) (d : List (Int × Bar))
    (hmem : b.timestamp ∈ d.map Prod.fst) :
    (upsert d b).map Prod.fst = d.map Prod.fst := by
  unfold upsert
  rw [if_pos hmem, List.map_map]
  refine List.map_congr_left fun p _ => ?_
  by_cases hp : p.1 = b.timestamp <;> simp [hp]

theorem keys_upsert_of_not_mem (b : Bar) (d : List (Int × Bar))
    (hmem : b.timestamp ∉ d.map Prod.fst) :
    (upsert d b).map Prod.fst = d.map Prod.fst ++ [b.timestamp] := by
  unfold upsert
  rw [if_neg hmem]
  simp

theorem keysNodup_upsert (b : Bar) (d : List (Int × Bar))
    (h : (d.map Prod.fst).Nodup) : ((upsert d b).map Prod.fst).Nodup := by
  by_cases hmem : b.timestamp ∈ d.map Prod.fst
  · rw [keys_upsert_of_mem b d hmem]
    exact h
  · rw [keys_upsert_of_not_mem b d hmem]
    rw [List.nodup_append]
    refine ⟨h, List.nodup_singleton _, ?_⟩
    intro a ha hb
    rw [List.mem_singleton] at hb
    subst hb
    exact hmem ha

theorem wf_upsert (b : Bar) (d : List (Int × Bar))
    (h : ∀ p ∈ d, p.1 = p.2.timestamp) :
    ∀ p ∈ upsert d b, p.1 = p.2.timestamp := by
  unfold upsert
  by_cases hmem : b.timestamp ∈ d.map Prod.fst
  · rw [if_pos hmem]
    intro p hp
    rcases List.mem_map.mp hp with ⟨q, hq, hfq⟩
    by_cases hqb : q.1 = b.timestamp
    · rw [← hfq]
      simp [hqb]
    · rw [← hfq]
      simp only [if_neg hqb]
      exact h q hq
  · rw [if_neg hmem]
    intro p hp
    rcases List.mem_append.mp hp with hp | hp
    · exact h p hp
    · simp only [List.mem_singleton] at hp
      rw [hp]

theorem dict_foldl_invariant (L : List Bar) :
    ∀ d : List (Int × Bar), (∀ p ∈ d, p.1 = p.2.timestamp) →
      (d.map Prod.fst).Nodup →
      (∀ p ∈ L.foldl upsert d, p.1 = p.2.timestamp) ∧
        ((L.foldl upsert d).map Prod.fst).Nodup := by
  induction L with
  | nil => exact fun d hwf hnd => ⟨hwf, hnd⟩
  | cons x L' ih =>
    intro d hwf hnd
    exact ih (upsert d x) (wf_upsert x d hwf) (keysNodup_upsert x d hnd)

theorem wf_dictByTimestamp (L : List Bar) :
    ∀ p ∈ dictByTimestamp L, p.1 = p.2.timestamp :=
  (dict_foldl_invariant L [] (by simp) (by simp)).1

theorem keysNodup_dictByTimestamp (L : List Bar) :
    ((dictByTimestamp L).map Prod.fst).Nodup :=
  (dict_foldl_invariant L [] (by simp) (by simp)).2

theorem lastWithTs_cons (t : Int) (x : Bar) (L : List Bar) :
    lastWithTs t (x :: L) =
      match lastWithTs t L with
      | some b => some b
      | none => if x.timestamp = t then some x else none := by
  unfold lastWithTs
  rw [List.reverse_cons, List.find?_append]
  cases hL : List.find? (fun b => decide (b.timestamp = t)) L.reverse with
  | none =>
    by_cases hx : x.timestamp = t <;> simp [List.find?, hx, Option.or]
  | some b => simp [Option.or]

theorem findTs_foldl (L : List Bar) :
    ∀ (d : List (Int × Bar)) (t : Int),
      findTs t (L.foldl upsert d) =
        match lastWithTs t L with
        | some b => some b
        | none => findTs t d := by
  induction L with
  | nil =>
    intro d t
    simp [lastWithTs]
  | cons x L' ih =>
    intro d t
    rw [List.foldl_cons, ih (upsert d x) t, lastWithTs_cons]
    cases hL : lastWithTs t L' with
    | some b => rfl
    | none =>
      rw [findTs_upsert]
      by_cases ht : t = x.timestamp
      · subst ht
        simp
      · have hxt : ¬ x.timestamp = t := fun h => ht h.symm
        simp [ht, hxt]

theorem findTs_some_mem (t : Int) (d : List (Int × Bar)) (x : Bar)
    (h : findTs t d = some x) : (t, x) ∈ d := by
  induction d with
  | nil => simp [findTs] at h
  | cons p d' ih =>
    obtain ⟨p1, p2⟩ := p
    by_cases hp : p1 = t
    · simp only [findTs, if_pos hp] at h
      obtain rfl : p2 = x := by injection h
      subst hp
      exact List.mem_cons_self (p1, p2) d'
    · simp only [findTs, if_neg hp] at h
      exact List.mem_cons_of_mem _ (ih h)

theorem mem_findTs_of_keysNodup (d : List (Int × Bar)) (p : Int × Bar)
    (hnd : (d.map Prod.fst).Nodup) (hp : p ∈ d) : findTs p.1 d = some p.2 := by
  induction d with
  | nil => simp at hp
  | cons q d' ih =>
    rw [List.map_cons, List.nodup_cons] at hnd
    rcases List.mem_cons.mp hp with hpq | hp'
    · subst hpq
      simp [findTs]
    · have hq : ¬ q.1 = p.1 := by
        intro hqp
        exact hnd.1 (hqp ▸ List.mem_map.mpr ⟨p, hp', rfl⟩)
      simp only [findTs, if_neg hq]
      exact ih hnd.2 hp'

/-- Membership in the deduplicated values list is exactly "being the
last occurrence of one's timestamp in the input". -/
theorem mem_dedupByTimestamp_iff (L : List Bar) (b : Bar) :
    b ∈ dedupByTimestamp L ↔ lastWithTs b.timestamp L = some b := by
  constructor
  · intro h
    rcases List.mem_map.mp h with ⟨p, hp, hsnd⟩
    have hfst : p.1 = b.timestamp := by
      rw [wf_dictByTimestamp L p hp, hsnd]
    have hfind : findTs b.timestamp (dictByTimestamp L) = some b := by
      have := mem_findTs_of_keysNodup _ p (keysNodup_dictByTimestamp L) hp
      rw [hfst, hsnd] at this
      exact this
    unfold dictByTimestamp at hfind
    rw [findTs_foldl] at hfind
    cases hL : lastWithTs b.timestamp L with
    | none =>
      rw [hL] at hfind
      simp [findTs] at hfind
    | some c =>
      rw [hL] at hfind
      exact hfind
  · intro h
    have hfind : findTs b.timestamp (dictByTimestamp L) = some b := by
      unfold dictByTimestamp
      rw [findTs_foldl, h]
    exact List.mem_map.mpr ⟨(b.timestamp, b), findTs_some_mem _ _ _ hfind, rfl⟩

theorem tsNodup_dedupByTimestamp (L : List Bar) :
    ((dedupByTimestamp L).map Bar.timestamp).Nodup := by
  have hmap : (dedupByTimestamp L).map Bar.timestamp =
      (dictByTimestamp L).map Prod.fst := by
    unfold dedupByTimestamp
    rw [List.map_map]
    exact List.map_congr_left fun p hp => (wf_dictByTimestamp L p hp).symm
  rw [hmap]
  exact keysNodup_dictByTimestamp L

theorem mem_of_mem_dedupByTimestamp (L : List Bar) (b : Bar)
    (h : b ∈ dedupByTimestamp L) : b ∈ L := by
  rw [mem_dedupByTimestamp_iff] at h
  exact List.mem_reverse.mp (List.mem_of_find?_eq_some h)

theorem lastWithTs_append (t : Int) (E N : List Bar) :
    lastWithTs t (E ++ N) =
      match lastWithTs t N with
      | some b => some b
      | none => lastWithTs t E := by
  unfold lastWithTs
  rw [List.reverse_append, List.find?_append]
  cases hN : List.find? (fun b => decide (b.timestamp = t)) N.reverse with
  | none => simp [Option.or]
  | some b => simp [Option.or]

theorem find?_ts_eq_some_of_tsNodup (M : List Bar) (b : Bar)
    (hnd : (M.map Bar.timestamp).Nodup) (hb : b ∈ M) :
    M.find? (fun x => decide (x.timestamp = b.timestamp)) = some b := by
  induction M with
  | nil => simp at hb
  | cons x M' ih =>
    rw [List.map_cons, List.nodup_cons] at hnd
    by_cases hx : x.timestamp = b.timestamp
    · have hbx : b = x := by
        rcases List.mem_cons.mp hb with h | h
        · exact h
        · exact absurd (by rw [hx]; exact List.mem_map.mpr ⟨b, h, rfl⟩) hnd.1
      rw [List.find?_cons]
      simp [hx, hbx]
    · have hbM : b ∈ M' := by
        rcases List.mem_cons.mp hb with h | h
        · exact absurd (by rw [h]) hx
        · exact h
      rw [List.find?_cons]
      have hdec : (decide (x.timestamp = b.timestamp)) = false := decide_eq_false hx
      rw [hdec]
      exact ih hnd.2 hbM

theorem lastWithTs_eq_some_of_tsNodup (L : List Bar) (b : Bar)
    (hnd : (L.map Bar.timestamp).Nodup) (hb : b ∈ L) :
    lastWithTs b.timestamp L = some b := by
  unfold lastWithTs
  have hndr : (L.reverse.map Bar.timestamp).Nodup := by
    rw [List.map_reverse]
    exact List.nodup_reverse.mpr hnd
  exact find?_ts_eq_some_of_tsNodup L.reverse b hndr (List.mem_reverse.mpr hb)

theorem lastWithTs_eq_none_iff (t : Int) (L : List Bar) :
    lastWithTs t L = none ↔ t ∉ L.map Bar.timestamp := by
  unfold lastWithTs
  rw [List.find?_eq_none]
  constructor
  · intro h hmem
    rcases List.mem_map.mp hmem with ⟨b, hb, hbt⟩
    exact h b (List.mem_reverse.mpr hb) (by simp [hbt])
  · intro h b hb hbt
    exact h (List.mem_map.mpr ⟨b, List.mem_reverse.mp hb, by simpa using hbt⟩)

/-! ## Sorting bars by timestamp (Python's `sorted(..., key=...)`) -/

/-- The sort order used throughout: by timestamp. -/
def tsLe (a b : Bar) : Prop := a.timestamp ≤ b.timestamp

instance : DecidableRel tsLe := fun a b =>
  inferInstanceAs (Decidable (a.timestamp ≤ b.timestamp))

instance : IsTotal Bar tsLe := ⟨fun a b => le_total a.timestamp b.timestamp⟩

instance : IsTrans Bar tsLe := ⟨fun _ _ _ h1 h2 => le_trans h1 h2⟩

/-- `sorted(bars, key=lambda b: b.timestamp)` (a stable sort). -/
def sortByTs (bars : List Bar) : List Bar := List.insertionSort tsLe bars

theorem sorted_sortByTs (l : List Bar) : List.Sorted tsLe (sortByTs l) :=
  List.sorted_insertionSort tsLe l

theorem perm_sortByTs (l : List Bar) : (sortByTs l).Perm l :=
  List.perm_insertionSort tsLe l

theorem mem_sortByTs (l : List Bar) (a : Bar) : a ∈ sortByTs l ↔ a ∈ l :=
  (perm_sortByTs l).mem_iff

theorem pairwise_lt_sortByTs (l : List Bar)
    (hnd : (l.map Bar.timestamp).Nodup) :
    List.Pairwise (fun a b : Bar => a.timestamp < b.timestamp) (sortByTs l) := by
  have hle : List.Pairwise tsLe (sortByTs l) := sorted_sortByTs l
  have hndm : ((sortByTs l).map Bar.timestamp).Nodup :=
    (((perm_sortByTs l).map Bar.timestamp).nodup_iff).mpr hnd
  have hne : List.Pairwise (fun a b : Bar => a.timestamp ≠ b.timestamp)
      (sortByTs l) := List.pairwise_map.mp hndm
  exact (hle.and hne).imp fun h => lt_of_le_of_ne h.1 h.2

/-! ## cache_manager.py : `CacheManager.get`

The tier I/O (`hot_storage.retrieve`, `cold_storage.retrieve`) is kept
at the boundary: the tiers' results enter as parameters (`none` models
both a `None` return and a failed/skipped query), `queryCold` models
the cutoff test `time_range.start_timestamp < cutoff_timestamp`. -/

/-- `CacheManager.get`: extend with hot bars, conditionally with cold
bars, then deduplicate by timestamp and sort.  Returns `none` when
caching is disabled or no bar was found. -/
def cacheGet (enabled : Bool) (hotResult : Option (List Bar))
    (queryCold : Bool) (coldResult : Option (List Bar)) : Option (List Bar) :=
  if enabled = false then none
  else
    let all_bars := hotResult.getD [] ++ (if queryCold then coldResult.getD [] else [])
    if all_bars = [] then none
    else some (sortByTs (dedupByTimestamp all_bars))

/-! ## firestore_storage.py / gcs_storage.py : `store`

Bucket assignment (calendar day of a local-time `datetime` for the hot
tier, calendar month for the cold tier) is kept abstract as a function
of the timestamp — the claims under study are about the per-bucket
merge behaviour, which is independent of the calendar arithmetic.
Persisted tier state is a map from bucket to the bar list stored for
that bucket (`[]` = no document/blob). -/

/-- `FirestoreStorage.store`: groups the input bars by day and writes
each day's group with `batch.set(doc_ref, data, merge=True)`.  A
Firestore set-with-merge replaces the `bars` array field wholesale, so
a written day bucket ends up holding exactly the new bars of that day;
buckets receiving no new bar are untouched. -/
def firestoreStore (dayOf : Int → Int) (persisted : Int → List Bar)
    (bars : List Bar) : Int → List Bar :=
  fun d =>
    let date_bars := bars.filter fun b => decide (dayOf b.timestamp = d)
    if date_bars = [] then persisted d else date_bars

/-- `GCSStorage.store`: groups the input bars by month; for each written
month loads the existing blob's bars, appends the new bars, deduplicates
by timestamp (new bars come later, so they win) and sorts before
uploading.  Months receiving no new bar are untouched. -/
def gcsStore (monthOf : Int → Int × Int) (persisted : Int × Int → List Bar)
    (bars : List Bar) : Int × Int → List Bar :=
  fun m =>
    let month_bars := bars.filter fun b => decide (monthOf b.timestamp = m)
    if month_bars = [] then persisted m
    else sortByTs (dedupByTimestamp (persisted m ++ month_bars))

/-! ## C2 and C6 -/

/-- C2 (counterexample): the hot tier's `store` does not retain
previously persisted bars of the same day bucket with other timestamps.
Concretely, with bucket function "Unix day", a persisted bar at
timestamp 0 and a stored bar at timestamp 60 (same day, different
timestamps), the day document afterwards holds only the new bar: the
claim's retention property fails on the Firestore tier. -/
theorem c2_store_counterexample :
    firestoreStore (fun ts => Int.fdiv ts 86400)
        (fun d => if d = 0 then [{ timestamp := 0, «open» := 1, high := 1
                                 , low := 1, close := 1, volume := 1 }] else [])
        [{ timestamp := 60, «open» := 2, high := 2
         , low := 2, close := 2, volume := 2 }] 0 =
      [{ timestamp := 60, «open» := 2, high := 2
       , low := 2, close := 2, volume := 2 }] ∧
    ({ timestamp := 0, «open» := 1, high := 1
     , low := 1, close := 1, volume := 1 } : Bar) ∉
      [({ timestamp := 60, «open» := 2, high := 2
        , low := 2, close := 2, volume := 2 } : Bar)] ∧
    (0 : Int) ≠ 60 := by
  refine ⟨?_, by decide, by decide⟩
  rfl

/-- C2 (amended): the cold tier's `store` merges each written month
bucket with the previously persisted bars last-write-wins — every new
bar of the bucket is present afterwards, every previously persisted bar
whose timestamp is not overwritten is retained, nothing else appears,
and the result is strictly sorted by timestamp; the hot tier's `store`
instead replaces each written day bucket's bar array with exactly the
new bars of that day (set-with-merge replaces the array field), and
both tiers leave untouched buckets unchanged. -/
theorem c2_store_merge (monthOf : Int → Int × Int)
    (persisted : Int × Int → List Bar) (bars : List Bar) (m : Int × Int)
    (hE : ((persisted m).map Bar.timestamp).Nodup)
    (hN : (bars.map Bar.timestamp).Nodup)
    (hne : bars.filter (fun b => decide (monthOf b.timestamp = m)) ≠ []) :
    (List.Pairwise (fun a b : Bar => a.timestamp < b.timestamp)
        (gcsStore monthOf persisted bars m)) ∧
    (∀ n ∈ bars.filter (fun b => decide (monthOf b.timestamp = m)),
        n ∈ gcsStore monthOf persisted bars m) ∧
    (∀ e ∈ persisted m,
        e.timestamp ∉ (bars.filter
            (fun b => decide (monthOf b.timestamp = m))).map Bar.timestamp →
        e ∈ gcsStore monthOf persisted bars m) ∧
    (∀ s ∈ gcsStore monthOf persisted bars m,
        s ∈ bars.filter (fun b => decide (monthOf b.timestamp = m)) ∨
          s ∈ persisted m) ∧
    (∀ (dayOf : Int → Int) (persistedHot : Int → List Bar) (d : Int),
        bars.filter (fun b => decide (dayOf b.timestamp = d)) ≠ [] →
        firestoreStore dayOf persistedHot bars d =
          bars.filter (fun b => decide (dayOf b.timestamp = d))) ∧
    (∀ m' : Int × Int,
        bars.filter (fun b => decide (monthOf b.timestamp = m')) = [] →
        gcsStore monthOf persisted bars m' = persisted m') := by
  set N := bars.filter (fun b => decide (monthOf b.timestamp = m)) with hNdef
  have hstore : gcsStore monthOf persisted bars m =
      sortByTs (dedupByTimestamp (persisted m ++ N)) := by
    unfold gcsStore
    rw [← hNdef, if_neg hne]
  have hNnodup : (N.map Bar.timestamp).Nodup := by
    rw [hNdef]
    exact List.Nodup.sublist
      (List.Sublist.map Bar.timestamp (List.filter_sublist bars)) hN
  refine ⟨?_, ?_, ?_, ?_, ?_, ?_⟩
  · rw [hstore]
    exact pairwise_lt_sortByTs _ (tsNodup_dedupByTimestamp _)
  · intro n hn
    rw [hstore, mem_sortByTs, mem_dedupByTimestamp_iff, lastWithTs_append]
    rw [lastWithTs_eq_some_of_tsNodup N n hNnodup hn]
  · intro e he hts
    rw [hstore, mem_sortByTs, mem_dedupByTimestamp_iff, lastWithTs_append]
    rw [(lastWithTs_eq_none_iff _ _).mpr hts]
    exact lastWithTs_eq_some_of_tsNodup _ e hE he
  · intro s hs
    rw [hstore, mem_sortByTs] at hs
    have := mem_of_mem_dedupByTimestamp _ _ hs
    rcases List.mem_append.mp this with h | h
    · exact Or.inr h
    · exact Or.inl h
  · intro dayOf persistedHot d hd
    unfold firestoreStore
    rw [if_neg hd]
  · intro m' hm'
    unfold gcsStore
    rw [hm']
    simp

/-- C2 witness: the amended cold-tier merge at a concrete month, with
one persisted bar kept, one overwritten, one new bar added. -/
theorem c2_store_merge_witness :
    (([({ timestamp := 0, «open» := 1, high := 1, low := 1, close := 1
        , volume := 1 } : Bar),
       { timestamp := 60, «open» := 1, high := 1, low := 1, close := 1
       , volume := 1 }].map Bar.timestamp).Nodup ∧
     (([({ timestamp := 60, «open» := 2, high := 2, low := 2, close := 2
         , volume := 2 } : Bar),
        { timestamp := 120, «open» := 3, high := 3, low := 3, close := 3
        , volume := 3 }]).map Bar.timestamp).Nodup) ∧
    gcsStore (fun _ => (2024, 1))
        (fun _ => [{ timestamp := 0, «open» := 1, high := 1, low := 1
                   , close := 1, volume := 1 },
                   { timestamp := 60, «open» := 1, high := 1, low := 1
                   , close := 1, volume := 1 }])
        [{ timestamp := 60, «open» := 2, high := 2, low := 2, close := 2
         , volume := 2 },
         { timestamp := 120, «open» := 3, high := 3, low := 3, close := 3
         , volume := 3 }] (2024, 1) =
      [{ timestamp := 0, «open» := 1, high := 1, low := 1, close := 1
       , volume := 1 },
       { timestamp := 60, «open» := 2, high := 2, low := 2, close := 2
       , volume := 2 },
       { timestamp := 120, «open» := 3, high := 3, low := 3, close := 3
       , volume := 3 }] ∧
    (∀ n ∈ ([{ timestamp := 60, «open» := 2, high := 2, low := 2, close := 2
             , volume := 2 },
             { timestamp := 120, «open» := 3, high := 3, low := 3, close := 3
             , volume := 3 }] : List Bar),
       n ∈ gcsStore (fun _ => (2024, 1))
        (fun _ => [{ timestamp := 0, «open» := 1, high := 1, low := 1
                   , close := 1, volume := 1 },
                   { timestamp := 60, «open» := 1, high := 1, low := 1
                   , close := 1, volume := 1 }])
        [{ timestamp := 60, «open» := 2, high := 2, low := 2, close := 2
         , volume := 2 },
         { timestamp := 120, «open» := 3, high := 3, low := 3, close := 3
         , volume := 3 }] (2024, 1)) := by
  refine ⟨⟨by decide, by decide⟩, by decide, ?_⟩
  have h := c2_store_merge (fun _ => (2024, 1))
    (fun _ => [{ timestamp := 0, «open» := 1, high := 1, low := 1
               , close := 1, volume := 1 },
               { timestamp := 60, «open» := 1, high := 1, low := 1
               , close := 1, volume := 1 }])
    [{ timestamp := 60, «open» := 2, high := 2, low := 2, close := 2
     , volume := 2 },
     { timestamp := 120, «open» := 3, high := 3, low := 3, close := 3
     , volume := 3 }] (2024, 1) (by decide) (by decide) (by decide)
  intro n hn
  exact h.2.1 n (by simpa using hn)

/-- C6 (counterexample): when both tiers return a bar with the same
timestamp, the dict comprehension in `CacheManager.get` iterates hot
bars first and cold bars second, so the cold-tier copy overwrites the
hot-tier copy — the claim that the hot-tier copy is returned fails at
this explicit input. -/
theorem c6_merge_counterexample :
    cacheGet true
        (some [{ timestamp := 0, «open» := 1, high := 1, low := 1
               , close := 1, volume := 1 }])
        true
        (some [{ timestamp := 0, «open» := 2, high := 2, low := 2
               , close := 2, volume := 2 }]) =
      some [{ timestamp := 0, «open» := 2, high := 2, low := 2
            , close := 2, volume := 2 }] ∧
    ({ timestamp := 0, «open» := 1, high := 1, low := 1, close := 1
     , volume := 1 } : Bar) ∉
      [({ timestamp := 0, «open» := 2, high := 2, low := 2, close := 2
        , volume := 2 } : Bar)] := by
  exact ⟨rfl, by decide⟩

/-- C6 (amended): when `CacheManager.get` obtains results from both
tiers, a timestamp present in both appears exactly once in the merged
list, and the bar returned for it is the cold-tier copy (the dict
comprehension iterates hot bars before cold bars, so later cold entries
overwrite hot ones). -/
theorem c6_merge (H C : List Bar) (t : Int) (bh bc : Bar)
    (_hH : (H.map Bar.timestamp).Nodup) (hC : (C.map Bar.timestamp).Nodup)
    (hbh : bh ∈ H) (hbc : bc ∈ C)
    (_hth : bh.timestamp = t) (htc : bc.timestamp = t) :
    ∃ bs, cacheGet true (some H) true (some C) = some bs ∧
      (bs.map Bar.timestamp).count t = 1 ∧ bc ∈ bs := by
  have hne : H ++ C ≠ [] := by
    intro h
    rw [List.append_eq_nil] at h
    rw [h.1] at hbh
    simp at hbh
  refine ⟨sortByTs (dedupByTimestamp (H ++ C)), ?_, ?_, ?_⟩
  · unfold cacheGet
    simp only [Bool.true_eq_false, if_false, if_true, Option.getD_some]
    rw [if_neg hne]
  · have hbc' : bc ∈ sortByTs (dedupByTimestamp (H ++ C)) := by
      rw [mem_sortByTs, mem_dedupByTimestamp_iff, lastWithTs_append]
      rw [lastWithTs_eq_some_of_tsNodup C bc hC hbc]
    have hperm : ((sortByTs (dedupByTimestamp (H ++ C))).map Bar.timestamp).Perm
        ((dedupByTimestamp (H ++ C)).map Bar.timestamp) :=
      (perm_sortByTs _).map Bar.timestamp
    rw [hperm.count_eq t]
    exact List.count_eq_one_of_mem (tsNodup_dedupByTimestamp _)
      (htc ▸ List.mem_map.mpr ⟨bc, (mem_sortByTs _ bc).mp hbc', rfl⟩)
  · rw [mem_sortByTs, mem_dedupByTimestamp_iff, lastWithTs_append]
    rw [lastWithTs_eq_some_of_tsNodup C bc hC hbc]

/-- C6 witness: the amended merge at concrete one-bar tier results
sharing timestamp 0. -/
theorem c6_merge_witness :
    ∃ bs, cacheGet true
        (some [{ timestamp := 0, «open» := 1, high := 1, low := 1
               , close := 1, volume := 1 }])
        true
        (some [{ timestamp := 0, «open» := 2, high := 2, low := 2
               , close := 2, volume := 2 }]) = some bs ∧
      (bs.map Bar.timestamp).count 0 = 1 ∧
      ({ timestamp := 0, «open» := 2, high := 2, low := 2, close := 2
       , volume := 2 } : Bar) ∈ bs :=
  c6_merge _ _ 0 _ _ (by decide) (by decide)
    (List.mem_singleton_self _) (List.mem_singleton_self _) rfl rfl

/-! ## cache_manager.py : `_get_interval_seconds` and `find_gaps` -/

/-- `CacheManager._get_interval_seconds`: `interval_map.get(interval, 3600)`;
the dict covers every member, so the `3600` default is dead code. -/
def intervalSeconds : Interval → Int
  | .oneMinute => 60
  | .fiveMinutes => 300
  | .fifteenMinutes => 900
  | .thirtyMinutes => 1800
  | .oneHour => 3600
  | .fourHours => 14400
  | .oneDay => 86400
  | .oneWeek => 604800
  | .oneMonth => 2592000

/-- Python's `sorted` on a list of integers. -/
def sortInts (l : List Int) : List Int :=
  List.insertionSort (fun a b => a ≤ b) l

/-- The middle-gap loop of `find_gaps`: `for i in range(len(ts) - 1)`,
record a gap when the adjacent difference exceeds `interval_seconds * 2`. -/
def middleGaps (cached_timestamps : List Int) (interval_seconds : Int) :
    List TimeRange :=
  (cached_timestamps.zip cached_timestamps.tail).filterMap fun p =>
    if p.2 - p.1 > interval_seconds * 2 then
      some { start_timestamp := p.1 + interval_seconds
           , end_timestamp := p.2 - interval_seconds }
    else none

/-- The part of `find_gaps` after the cache lookup produced a nonempty
bar list: leading gap, middle gaps, trailing gap over the sorted
timestamps `t0 :: rest` (`cached_timestamps[-1]` is `rest.getLastD t0`). -/
def gapsOfSorted (cache_key : CacheKey) (requested_range : TimeRange)
    (interval_seconds : Int) (t0 : Int) (rest : List Int) : List DataGap :=
  let leading : List DataGap :=
    if t0 > requested_range.start_timestamp then
      [⟨cache_key, { start_timestamp := requested_range.start_timestamp
                   , end_timestamp := t0 - 1 }⟩]
    else []
  let middle := (middleGaps (t0 :: rest) interval_seconds).map
    fun r => (⟨cache_key, r⟩ : DataGap)
  let tlast := rest.getLastD t0
  let trailing : List DataGap :=
    if tlast < requested_range.end_timestamp then
      [⟨cache_key, { start_timestamp := tlast + 1
                   , end_timestamp := requested_range.end_timestamp }⟩]
    else []
  leading ++ middle ++ trailing

/-- `CacheManager.find_gaps`.  The `self.get` call and the surrounding
`try`/`except` are kept at the boundary: `getResult` is `.error ()` when
gap analysis raises internally, otherwise `.ok` of what `get` returned. -/
def find_gaps (enabled : Bool) (cache_key : CacheKey)
    (getResult : Except Unit (Option (List Bar)))
    (requested_range : TimeRange) : List DataGap :=
  if enabled = false then [⟨cache_key, requested_range⟩]
  else
    match getResult with
    | .error _ => [⟨cache_key, requested_range⟩]
    | .ok none => [⟨cache_key, requested_range⟩]
    | .ok (some cached_bars) =>
      match sortInts (cached_bars.map Bar.timestamp) with
      | [] => [⟨cache_key, requested_range⟩]
      | t0 :: rest =>
        gapsOfSorted cache_key requested_range
          (intervalSeconds cache_key.interval) t0 rest

theorem find_gaps_cons_eq (key : CacheKey) (bars : List Bar)
    (range : TimeRange) (t0 : Int) (rest : List Int)
    (h : sortInts (bars.map Bar.timestamp) = t0 :: rest) :
    find_gaps true key (.ok (some bars)) range =
      gapsOfSorted key range (intervalSeconds key.interval) t0 rest := by
  simp only [find_gaps]
  rw [h]
  simp

/-! ## C1 and C7 -/

/-- C1: (i) a middle gap is recorded for an adjacent pair of sorted
cached timestamps exactly when their difference exceeds twice the
interval duration, and it spans `[prev + interval, next - interval]`;
(ii) end to end, for cached timestamps `[T, T+300, T+1500]` at the
5-minute (300 s) interval over the requested range `[T, T+1500]`,
`find_gaps` produces exactly the one internal gap `[T+600, T+1200]`. -/
theorem c1_internal_gaps :
    (∀ (tss : List Int) (is : Int) (g : TimeRange),
      g ∈ middleGaps tss is ↔
        ∃ i : Nat, ∃ h : i + 1 < tss.length,
          tss.get ⟨i + 1, h⟩ - tss.get ⟨i, Nat.lt_of_succ_lt h⟩ > is * 2 ∧
          g = { start_timestamp := tss.get ⟨i, Nat.lt_of_succ_lt h⟩ + is
              , end_timestamp := tss.get ⟨i + 1, h⟩ - is }) ∧
    (∀ (T : Int) (sym scr ex : Str),
      find_gaps true ⟨sym, scr, ex, .fiveMinutes⟩
        (.ok (some
          [ { timestamp := T, «open» := 0, high := 0, low := 0
            , close := 0, volume := 0 }
          , { timestamp := T + 300, «open» := 0, high := 0, low := 0
            , close := 0, volume := 0 }
          , { timestamp := T + 1500, «open» := 0, high := 0, low := 0
            , close := 0, volume := 0 } ]))
        { start_timestamp := T, end_timestamp := T + 1500 } =
      [⟨⟨sym, scr, ex, .fiveMinutes⟩,
        { start_timestamp := T + 600, end_timestamp := T + 1200 }⟩]) := by
  constructor
  · intro tss is g
    unfold middleGaps
    rw [List.mem_filterMap]
    constructor
    · rintro ⟨p, hp, hfp⟩
      rcases List.mem_iff_getElem.mp hp with ⟨i, hi, hpi⟩
      have hit : i < tss.tail.length := by
        have hlen := List.length_zip tss tss.tail
        rw [hlen] at hi
        exact lt_of_lt_of_le hi (min_le_right _ _)
      have hi1 : i + 1 < tss.length := by
        have htl := List.length_tail tss
        omega
      have hpz : p = (tss[i], tss.tail[i]) := by
        rw [← hpi, List.getElem_zip]
      have htt := List.getElem_tail tss i hit
      refine ⟨i, hi1, ?_⟩
      rw [hpz, htt] at hfp
      by_cases hc : tss[i + 1] - tss[i] > is * 2
      · rw [if_pos hc] at hfp
        refine ⟨by simpa using hc, ?_⟩
        simp only [List.get_eq_getElem]
        exact (Option.some.inj hfp).symm
      · rw [if_neg hc] at hfp
        exact absurd hfp (by simp)
    · rintro ⟨i, h, hgt, hg⟩
      have hit : i < tss.tail.length := by
        rw [List.length_tail]
        omega
      have hiz : i < (tss.zip tss.tail).length := by
        rw [List.length_zip, List.length_tail]
        omega
      refine ⟨(tss[i], tss[i + 1]), ?_, ?_⟩
      · refine List.mem_iff_getElem.mpr ⟨i, hiz, ?_⟩
        rw [List.getElem_zip, List.getElem_tail]
      · simp only [List.get_eq_getElem] at hgt hg
        rw [if_pos (by simpa using hgt), hg]
  · intro T sym scr ex
    have hsort : sortInts
        ([ { timestamp := T, «open» := 0, high := 0, low := 0
           , close := 0, volume := 0 }
         , { timestamp := T + 300, «open» := 0, high := 0, low := 0
           , close := 0, volume := 0 }
         , { timestamp := T + 1500, «open» := 0, high := 0, low := 0
           , close := 0, volume := 0 } ].map Bar.timestamp) =
        [T, T + 300, T + 1500] := by
      show sortInts [T, T + 300, T + 1500] = [T, T + 300, T + 1500]
      unfold sortInts
      refine List.Sorted.insertionSort_eq ?_
      simp [List.sorted_cons]
      try omega
    have hmid : middleGaps [T, T + 300, T + 1500]
          (intervalSeconds Interval.fiveMinutes) =
        [{ start_timestamp := T + 600, end_timestamp := T + 1200 }] := by
      show middleGaps [T, T + 300, T + 1500] 300 =
        [{ start_timestamp := T + 600, end_timestamp := T + 1200 }]
      unfold middleGaps
      rw [show ([T, T + 300, T + 1500].zip [T, T + 300, T + 1500].tail) =
            [(T, T + 300), (T + 300, T + 1500)] from rfl]
      simp only [List.filterMap_cons, List.filterMap_nil]
      rw [if_neg (by omega : ¬ (T + 300 - T > (300 : Int) * 2))]
      rw [if_pos (by omega : T + 1500 - (T + 300) > (300 : Int) * 2)]
      simp
      try omega
    rw [find_gaps_cons_eq _ _ _ _ _ hsort]
    simp only [gapsOfSorted]
    rw [hmid]
    rw [if_neg (by omega : ¬ ((T : Int) > T))]
    rw [show ([T + 300, T + 1500].getLastD T) = T + 1500 from rfl]
    rw [if_neg (by omega : ¬ ((T + 1500 : Int) < T + 1500))]
    simp

/-- C7: `find_gaps` returns the entire requested range as the single gap
whenever caching is disabled, the cache lookup yields nothing (`None` or
an empty list), or gap analysis raises internally (fail-open). -/
theorem c7_whole_range_gap :
    (∀ (key : CacheKey) (range : TimeRange)
        (res : Except Unit (Option (List Bar))),
      find_gaps false key res range = [⟨key, range⟩]) ∧
    (∀ (key : CacheKey) (range : TimeRange) (e : Bool),
      find_gaps e key (.error ()) range = [⟨key, range⟩]) ∧
    (∀ (key : CacheKey) (range : TimeRange) (e : Bool),
      find_gaps e key (.ok none) range = [⟨key, range⟩]) ∧
    (∀ (key : CacheKey) (range : TimeRange) (e : Bool),
      find_gaps e key (.ok (some [])) range = [⟨key, range⟩]) := by
  refine ⟨fun key range res => ?_, fun key range e => ?_,
    fun key range e => ?_, fun key range e => ?_⟩
  · simp [find_gaps]
  · cases e <;> simp [find_gaps]
  · cases e <;> simp [find_gaps]
  · cases e <;> simp [find_gaps, sortInts]

/-! ## rate_limiter.py

`time.time()` enters as an explicit rational `now`; the helpers each
re-invoke `_reset_windows_if_needed`, which is idempotent at a fixed
`now`, so the reset is applied once per admission check.  Raising
`RateLimitExceeded` before the wrapped operation is invoked is modelled
by `admitRequest` returning `none`; `some st'` means the operation is
invoked with the recorded state `st'`. -/

/-- `rate_limiter.RateLimitState`. -/
structure RateLimitState where
  requests_this_minute : Nat
  requests_this_hour : Nat
  minute_window_start : ℚ
  hour_window_start : ℚ
  consecutive_failures : Nat
  current_backoff : ℚ
deriving DecidableEq, Repr

/-- The rate-limit configuration drawn from `config` in `__init__`. -/
structure RateLimiterConfig where
  enabled : Bool
  max_per_minute : Nat
  max_per_hour : Nat
  initial_backoff : ℚ
  max_backoff : ℚ
  backoff_multiplier : ℚ
deriving DecidableEq, Repr

/-- `RateLimiter._reset_windows_if_needed`. -/
def resetWindowsIfNeeded (st : RateLimitState) (now : ℚ) : RateLimitState :=
  let st1 := if now - st.minute_window_start ≥ 60 then
    { st with requests_this_minute := 0, minute_window_start := now } else st
  if now - st1.hour_window_start ≥ 3600 then
    { st1 with requests_this_hour := 0, hour_window_start := now } else st1

/-- `RateLimiter._can_make_request` (after the windows were reset). -/
def canMakeRequest (cfg : RateLimiterConfig) (st : RateLimitState) : Prop :=
  st.requests_this_minute < cfg.max_per_minute ∧
  st.requests_this_hour < cfg.max_per_hour

instance (cfg : RateLimiterConfig) (st : RateLimitState) :
    Decidable (canMakeRequest cfg st) :=
  inferInstanceAs (Decidable (_ ∧ _))

/-- `RateLimiter._calculate_wait_time` (after the windows were reset). -/
def calculateWaitTime (cfg : RateLimiterConfig) (st : RateLimitState)
    (now : ℚ) : ℚ :=
  if st.current_backoff > 0 then st.current_backoff
  else if st.requests_this_minute ≥ cfg.max_per_minute then
    max 0 (60 - (now - st.minute_window_start))
  else if st.requests_this_hour ≥ cfg.max_per_hour then
    max 0 (3600 - (now - st.hour_window_start))
  else 0

/-- `RateLimiter._record_request` (after the windows were reset). -/
def recordRequest (st : RateLimitState) : RateLimitState :=
  { st with requests_this_minute := st.requests_this_minute + 1
          , requests_this_hour := st.requests_this_hour + 1 }

/-- The admission phase of `RateLimiter.execute` (the locked section):
`none` models `raise RateLimitExceeded` — the wrapped operation is never
invoked for that call. -/
def admitRequest (cfg : RateLimiterConfig) (st : RateLimitState)
    (now : ℚ) : Option RateLimitState :=
  if cfg.enabled = false then some st
  else
    let st1 := resetWindowsIfNeeded st now
    if canMakeRequest cfg st1 then some (recordRequest st1)
    else if calculateWaitTime cfg st1 now > 0 then none
    else some (recordRequest st1)

/-- A sequence of `execute` admission checks at the given times;
`none` as soon as one call raises `RateLimitExceeded`. -/
def admitSequence (cfg : RateLimiterConfig) :
    RateLimitState → List ℚ → Option RateLimitState
  | st, [] => some st
  | st, t :: ts =>
    match admitRequest cfg st t with
    | none => none
    | some st' => admitSequence cfg st' ts

/-- `RateLimiter._handle_success`. -/
def handleSuccess (st : RateLimitState) : RateLimitState :=
  { st with consecutive_failures := 0, current_backoff := 0 }

/-- `RateLimiter._handle_rate_limit_error`. -/
def handleRateLimitError (cfg : RateLimiterConfig)
    (st : RateLimitState) : RateLimitState :=
  if st.consecutive_failures + 1 = 1 then
    { st with consecutive_failures := st.consecutive_failures + 1
            , current_backoff := cfg.initial_backoff }
  else
    { st with consecutive_failures := st.consecutive_failures + 1
            , current_backoff :=
                min (st.current_backoff * cfg.backoff_multiplier)
                  cfg.max_backoff }

theorem resetWindows_id (t0 now : ℚ) (cm ch f : Nat) (b : ℚ)
    (h2 : now - t0 < 60) :
    resetWindowsIfNeeded ⟨cm, ch, t0, t0, f, b⟩ now = ⟨cm, ch, t0, t0, f, b⟩ := by
  unfold resetWindowsIfNeeded
  rw [if_neg (by simp only [not_le]; linarith : ¬ (now - t0 ≥ 60))]
  rw [if_neg (by simp only [not_le]; linarith : ¬ (now - t0 ≥ 3600))]

theorem admitRequest_grants (cfg : RateLimiterConfig) (cnt f : Nat)
    (t0 t b : ℚ) (hen : cfg.enabled = true)
    (h2 : t - t0 < 60)
    (hm : cnt < cfg.max_per_minute) (hh : cnt < cfg.max_per_hour) :
    admitRequest cfg ⟨cnt, cnt, t0, t0, f, b⟩ t =
      some ⟨cnt + 1, cnt + 1, t0, t0, f, b⟩ := by
  have hcan : canMakeRequest cfg ⟨cnt, cnt, t0, t0, f, b⟩ := ⟨hm, hh⟩
  unfold admitRequest
  rw [if_neg (by simp [hen])]
  simp only [resetWindows_id t0 t cnt cnt f b h2]
  rw [if_pos hcan]
  rfl

theorem admitRequest_refuse (cfg : RateLimiterConfig) (f : Nat)
    (t0 t b : ℚ) (hen : cfg.enabled = true) (h2 : t - t0 < 60) :
    admitRequest cfg
        ⟨cfg.max_per_minute, cfg.max_per_minute, t0, t0, f, b⟩ t = none := by
  have hncan : ¬ canMakeRequest cfg
      ⟨cfg.max_per_minute, cfg.max_per_minute, t0, t0, f, b⟩ :=
    fun hc => absurd hc.1 (lt_irrefl _)
  unfold admitRequest
  rw [if_neg (by simp [hen])]
  simp only [resetWindows_id t0 t _ _ f b h2]
  rw [if_neg hncan]
  rw [if_pos]
  unfold calculateWaitTime
  by_cases hb : b > 0
  · rw [if_pos hb]
    exact hb
  · rw [if_neg hb, if_pos (le_refl _)]
    have : (0 : ℚ) < 60 - (t - t0) := by linarith
    calc (0 : ℚ) < 60 - (t - t0) := this
      _ ≤ max 0 (60 - (t - t0)) := le_max_right _ _

theorem admitRequest_newWindow (cfg : RateLimiterConfig) (cm ch f : Nat)
    (t0 t b : ℚ) (hen : cfg.enabled = true)
    (h1 : 60 ≤ t - t0) (h2 : t - t0 < 3600)
    (hm : 0 < cfg.max_per_minute) (hh : ch < cfg.max_per_hour) :
    admitRequest cfg ⟨cm, ch, t0, t0, f, b⟩ t =
      some ⟨1, ch + 1, t, t0, f, b⟩ := by
  unfold admitRequest
  rw [if_neg (by simp [hen])]
  have hreset : resetWindowsIfNeeded ⟨cm, ch, t0, t0, f, b⟩ t =
      ⟨0, ch, t, t0, f, b⟩ := by
    unfold resetWindowsIfNeeded
    rw [if_pos (h1 : t - t0 ≥ 60)]
    rw [if_neg (by simp only [not_le]; linarith : ¬ (t - t0 ≥ 3600))]
  have hcan : canMakeRequest cfg ⟨0, ch, t, t0, f, b⟩ := ⟨hm, hh⟩
  simp only [hreset]
  rw [if_pos hcan]
  rfl

theorem admitSequence_fills (cfg : RateLimiterConfig) (t0 : ℚ)
    (hen : cfg.enabled = true) (hmh : cfg.max_per_minute ≤ cfg.max_per_hour) :
    ∀ (times : List ℚ) (cnt f : Nat) (b : ℚ),
      (∀ t ∈ times, t - t0 < 60) →
      cnt + times.length ≤ cfg.max_per_minute →
      admitSequence cfg ⟨cnt, cnt, t0, t0, f, b⟩ times =
        some ⟨cnt + times.length, cnt + times.length, t0, t0, f, b⟩ := by
  intro times
  induction times with
  | nil =>
    intro cnt f b _ _
    simp [admitSequence]
  | cons t ts ih =>
    intro cnt f b hwin hcnt
    have hm : cnt < cfg.max_per_minute := by
      have := List.length_cons t ts
      omega
    have hh : cnt < cfg.max_per_hour := lt_of_lt_of_le hm hmh
    unfold admitSequence
    rw [admitRequest_grants cfg cnt f t0 t b hen
      (hwin t (List.mem_cons_self t ts)) hm hh]
    show admitSequence cfg ⟨cnt + 1, cnt + 1, t0, t0, f, b⟩ ts =
      some ⟨cnt + (t :: ts).length, cnt + (t :: ts).length, t0, t0, f, b⟩
    rw [ih (cnt + 1) f b (fun x hx => hwin x (List.mem_cons_of_mem t hx))
      (by have := List.length_cons t ts; omega)]
    rw [(by rw [List.length_cons]; omega :
      cnt + 1 + ts.length = cnt + (t :: ts).length)]

/-! ## C3 and C8 -/

/-- C3: with rate limiting enabled and per-minute ceiling
`max_per_minute` (and an hour ceiling that is not the binding
constraint), starting from a fresh window at `t0`: the first
`max_per_minute` calls within the minute window are all admitted; one
further call within the window raises `RateLimitExceeded` before its
operation is invoked (`admitRequest = none`); and a call made once 60
seconds have elapsed since the window start is admitted again. -/
theorem c3_rate_limit_window (cfg : RateLimiterConfig) (t0 : ℚ)
    (f : Nat) (b : ℚ) (times : List ℚ) (tLast tNext : ℚ)
    (hen : cfg.enabled = true)
    (hmm : 0 < cfg.max_per_minute)
    (hmh : cfg.max_per_minute < cfg.max_per_hour)
    (hlen : times.length = cfg.max_per_minute)
    (hwin : ∀ t ∈ times, t - t0 < 60)
    (hlast : tLast - t0 < 60)
    (hnext1 : 60 ≤ tNext - t0) (hnext2 : tNext - t0 < 3600) :
    ∃ stF, admitSequence cfg ⟨0, 0, t0, t0, f, b⟩ times = some stF ∧
      stF.requests_this_minute = cfg.max_per_minute ∧
      admitRequest cfg stF tLast = none ∧
      (admitRequest cfg stF tNext).isSome = true := by
  have hfill := admitSequence_fills cfg t0 hen (le_of_lt hmh) times 0 f b hwin
    (by omega)
  rw [hlen] at hfill
  refine ⟨⟨cfg.max_per_minute, cfg.max_per_minute, t0, t0, f, b⟩, ?_, rfl, ?_, ?_⟩
  · simpa using hfill
  · exact admitRequest_refuse cfg f t0 tLast b hen hlast
  · rw [admitRequest_newWindow cfg cfg.max_per_minute cfg.max_per_minute f
      t0 tNext b hen hnext1 hnext2 hmm hmh]
    rfl

/-- C3 witness: ceiling 2 per minute, hour ceiling 10, window start 0,
admitted calls at 0 and 1, refusal at 30, re-admission at 61. -/
theorem c3_rate_limit_window_witness :
    ((⟨true, 2, 10, 1, 60, 2⟩ : RateLimiterConfig).enabled = true ∧
      (0 : Nat) < 2 ∧ (2 : Nat) < 10 ∧
      ([ (0 : ℚ), 1 ].length = 2) ∧
      (∀ t ∈ [(0 : ℚ), 1], t - 0 < 60) ∧
      ((30 : ℚ) - 0 < 60) ∧ ((60 : ℚ) ≤ 61 - 0) ∧ ((61 : ℚ) - 0 < 3600)) ∧
    ∃ stF, admitSequence ⟨true, 2, 10, 1, 60, 2⟩ ⟨0, 0, 0, 0, 0, 0⟩
        [(0 : ℚ), 1] = some stF ∧
      stF.requests_this_minute = 2 ∧
      admitRequest ⟨true, 2, 10, 1, 60, 2⟩ stF 30 = none ∧
      (admitRequest ⟨true, 2, 10, 1, 60, 2⟩ stF 61).isSome = true := by
  refine ⟨⟨rfl, by norm_num, by norm_num, by norm_num, ?_, by norm_num,
    by norm_num, by norm_num⟩, ?_⟩
  · intro t ht
    rcases List.mem_cons.mp ht with h | h
    · rw [h]; norm_num
    · rw [List.mem_singleton.mp h]; norm_num
  · refine c3_rate_limit_window ⟨true, 2, 10, 1, 60, 2⟩ 0 0 0 [0, 1] 30 61
      rfl (by norm_num) (by norm_num) (by norm_num) ?_ (by norm_num)
      (by norm_num) (by norm_num)
    intro t ht
    rcases List.mem_cons.mp ht with h | h
    · rw [h]; norm_num
    · rw [List.mem_singleton.mp h]; norm_num

theorem handleRLE_failures_succ (cfg : RateLimiterConfig)
    (s : RateLimitState) :
    (handleRateLimitError cfg s).consecutive_failures =
      s.consecutive_failures + 1 := by
  unfold handleRateLimitError
  by_cases hc : s.consecutive_failures + 1 = 1
  · rw [if_pos hc]
  · rw [if_neg hc]

theorem handleRLE_backoff_first (cfg : RateLimiterConfig)
    (s : RateLimitState) (h : s.consecutive_failures = 0) :
    (handleRateLimitError cfg s).current_backoff = cfg.initial_backoff := by
  unfold handleRateLimitError
  rw [if_pos (by omega)]

theorem handleRLE_backoff_succ (cfg : RateLimiterConfig)
    (s : RateLimitState) (h : s.consecutive_failures ≠ 0) :
    (handleRateLimitError cfg s).current_backoff =
      min (s.current_backoff * cfg.backoff_multiplier) cfg.max_backoff := by
  unfold handleRateLimitError
  rw [if_neg (by omega)]

theorem handleRLE_failures (cfg : RateLimiterConfig) (st : RateLimitState) :
    ∀ k : Nat, ((handleRateLimitError cfg)^[k] st).consecutive_failures =
      st.consecutive_failures + k := by
  intro k
  induction k with
  | zero => simp
  | succ n ih =>
    rw [Function.iterate_succ_apply', handleRLE_failures_succ, ih]
    omega

/-- C8: starting from a state with no consecutive failures, the backoff
after the first throttling failure equals `initial_backoff`, and after
each subsequent failure equals `min(previous * multiplier, max_backoff)`;
a successful call resets the consecutive-failure count and backoff to
zero; with initial 1.0, multiplier 2.0, max 60.0 the successive backoff
values are 1, 2, 4, 8, 16, and from the sixth failure on every backoff
value is capped at 60. -/
theorem c8_backoff (cfg : RateLimiterConfig) (st : RateLimitState)
    (h0 : st.consecutive_failures = 0) :
    (handleRateLimitError cfg st).current_backoff = cfg.initial_backoff ∧
    (∀ k : Nat, 1 ≤ k →
      ((handleRateLimitError cfg)^[k + 1] st).current_backoff =
        min (((handleRateLimitError cfg)^[k] st).current_backoff *
          cfg.backoff_multiplier) cfg.max_backoff) ∧
    (∀ st' : RateLimitState, (handleSuccess st').consecutive_failures = 0 ∧
      (handleSuccess st').current_backoff = 0) ∧
    (cfg.initial_backoff = 1 → cfg.backoff_multiplier = 2 →
      cfg.max_backoff = 60 →
      ((handleRateLimitError cfg)^[1] st).current_backoff = 1 ∧
      ((handleRateLimitError cfg)^[2] st).current_backoff = 2 ∧
      ((handleRateLimitError cfg)^[3] st).current_backoff = 4 ∧
      ((handleRateLimitError cfg)^[4] st).current_backoff = 8 ∧
      ((handleRateLimitError cfg)^[5] st).current_backoff = 16 ∧
      ∀ k : Nat, 6 ≤ k →
        ((handleRateLimitError cfg)^[k] st).current_backoff ≤ 60) := by
  have hfirst : (handleRateLimitError cfg st).current_backoff =
      cfg.initial_backoff := handleRLE_backoff_first cfg st h0
  have hstep : ∀ k : Nat, 1 ≤ k →
      ((handleRateLimitError cfg)^[k + 1] st).current_backoff =
        min (((handleRateLimitError cfg)^[k] st).current_backoff *
          cfg.backoff_multiplier) cfg.max_backoff := by
    intro k hk
    rw [Function.iterate_succ_apply']
    refine handleRLE_backoff_succ cfg _ ?_
    rw [handleRLE_failures cfg st k, h0]
    omega
  refine ⟨hfirst, hstep, fun st' => ⟨rfl, rfl⟩, fun hi hmul hmax => ?_⟩
  have h1 : ((handleRateLimitError cfg)^[1] st).current_backoff = 1 := by
    rw [Function.iterate_one, hfirst, hi]
  have h2 : ((handleRateLimitError cfg)^[2] st).current_backoff = 2 := by
    rw [hstep 1 (by norm_num), h1, hmul, hmax]
    norm_num
  have h3 : ((handleRateLimitError cfg)^[3] st).current_backoff = 4 := by
    rw [hstep 2 (by norm_num), h2, hmul, hmax]
    norm_num
  have h4 : ((handleRateLimitError cfg)^[4] st).current_backoff = 8 := by
    rw [hstep 3 (by norm_num), h3, hmul, hmax]
    norm_num
  have h5 : ((handleRateLimitError cfg)^[5] st).current_backoff = 16 := by
    rw [hstep 4 (by norm_num), h4, hmul, hmax]
    norm_num
  refine ⟨h1, h2, h3, h4, h5, fun k hk => ?_⟩
  obtain ⟨j, rfl⟩ : ∃ j, k = j + 1 := ⟨k - 1, by omega⟩
  rw [hstep j (by omega), hmax]
  exact min_le_right _ _

/-- C8 witness: the backoff clauses at the all-zero initial state and
the concrete 1.0 / 2.0 / 60.0 configuration. -/
theorem c8_backoff_witness :
    ((⟨0, 0, 0, 0, 0, 0⟩ : RateLimitState).consecutive_failures = 0) ∧
    (handleRateLimitError ⟨true, 2, 10, 1, 60, 2⟩
      ⟨0, 0, 0, 0, 0, 0⟩).current_backoff = 1 ∧
    ((handleRateLimitError ⟨true, 2, 10, 1, 60, 2⟩)^[5]
      ⟨0, 0, 0, 0, 0, 0⟩).current_backoff = 16 ∧
    ((handleRateLimitError ⟨true, 2, 10, 1, 60, 2⟩)^[7]
      ⟨0, 0, 0, 0, 0, 0⟩).current_backoff ≤ 60 := by
  have h := c8_backoff ⟨true, 2, 10, 1, 60, 2⟩ ⟨0, 0, 0, 0, 0, 0⟩ rfl
  have hc := h.2.2.2 rfl rfl rfl
  exact ⟨rfl, by rw [← Function.iterate_one
    (handleRateLimitError ⟨true, 2, 10, 1, 60, 2⟩)]; exact hc.1,
    hc.2.2.2.2.1, hc.2.2.2.2.2 7 (by norm_num)⟩

/-! ## data_fetcher.py : rate-limit fallback -/

/-- Rendering of an integer in a Python f-string. -/
def intToStr (n : Int) : Str :=
  if n < 0 then '-' :: Nat.toDigits 10 n.natAbs else Nat.toDigits 10 n.toNat

/-- The `cache_warning` f-string of `_get_cached_analysis_only`
(`cache_age // 60` is floor division; the leading warning-sign emoji is
omitted from the character-level model). -/
def cacheWarningText (cache_age : Int) : Str :=
  str "Rate limit exceeded. Showing cached data from " ++
    intToStr (Int.fdiv cache_age 60) ++ str " minutes ago."

/-- The dictionaries returned by `get_analysis_with_cache` /
`_get_cached_analysis_only`, as a tagged union: the fresh-data dict
(its indicator fields abstracted to the underlying bar, `from_cache`
false), the cached-bar dict, and the explicit error dict. -/
inductive AnalysisResult where
  | fresh (bar : Bar)
  | cached (bar : Bar) (from_cache : Bool) (cache_age_seconds : Int)
      (cache_warning : Str)
  | errorResult (error : Str) (from_cache : Bool)
deriving DecidableEq, Repr

/-- `DataFetcher._get_cached_analysis_only`: `cachedBars` is what
`cache.get` returned over the 24-hour lookback window ending at `now`;
`cached_bars[-1]` is `getLast?`. -/
def getCachedAnalysisOnly (cachedBars : Option (List Bar)) (now : Int) :
    AnalysisResult :=
  match cachedBars with
  | some bs =>
    match bs.getLast? with
    | some bar =>
      .cached bar true (now - bar.timestamp)
        (cacheWarningText (now - bar.timestamp))
    | none => .errorResult
        (str "Rate limit exceeded and no cached data available") true
  | none => .errorResult
      (str "Rate limit exceeded and no cached data available") true

/-- The fallback dispatch of `DataFetcher.get_analysis_with_cache`:
`.error ()` models `RateLimitExceeded` escaping the rate-limited
provider call (both the `get_current_bar` path, which surfaces as a
`None` bar, and the `except RateLimitExceeded` handler lead to
`_get_cached_analysis_only`). -/
def getAnalysisWithCache (apiOutcome : Except Unit Bar)
    (cachedBars : Option (List Bar)) (now : Int) : AnalysisResult :=
  match apiOutcome with
  | .ok bar => .fresh bar
  | .error _ => getCachedAnalysisOnly cachedBars now

theorem cacheWarningText_ne_nil (a : Int) : cacheWarningText a ≠ [] := by
  unfold cacheWarningText
  intro h
  rw [List.append_eq_nil, List.append_eq_nil] at h
  have : str "Rate limit exceeded. Showing cached data from " ≠ [] := by decide
  exact this h.1.1

theorem sorted_le_getLast (l : List Bar) (b : Bar)
    (hs : List.Sorted tsLe l) (hl : l.getLast? = some b) :
    ∀ x ∈ l, x.timestamp ≤ b.timestamp := by
  rcases List.getLast?_eq_some_iff.mp hl with ⟨ys, rfl⟩
  intro x hx
  rcases List.mem_append.mp hx with hx | hx
  · have := (List.pairwise_append.mp hs).2.2 x hx b (List.mem_singleton_self b)
    exact this
  · rw [List.mem_singleton.mp hx]

/-! ## C4 -/

/-- C4: when the rate limiter raises `RateLimitExceeded`, the analysis
operation falls back to the cache: with cached bars present in the
lookback window it returns the most recent cached bar annotated with
`from_cache = true`, an explicit `cache_age_seconds = now - bar.timestamp`,
and a nonempty human-readable staleness warning; with no cached bar it
returns an explicit structured error dict (also flagged `from_cache`)
rather than raising or returning silently-wrong data. -/
theorem c4_rate_limit_fallback (cachedBars : Option (List Bar)) (now : Int) :
    (∀ bs : List Bar, cachedBars = some bs → bs ≠ [] →
      List.Sorted tsLe bs →
      ∃ bar, getAnalysisWithCache (.error ()) cachedBars now =
          .cached bar true (now - bar.timestamp)
            (cacheWarningText (now - bar.timestamp)) ∧
        bar ∈ bs ∧ (∀ x ∈ bs, x.timestamp ≤ bar.timestamp) ∧
        cacheWarningText (now - bar.timestamp) ≠ []) ∧
    ((cachedBars = none ∨ cachedBars = some []) →
      ∃ msg : Str, getAnalysisWithCache (.error ()) cachedBars now =
          .errorResult msg true ∧ msg ≠ []) := by
  constructor
  · intro bs hbs hne hsorted
    subst hbs
    cases hl : bs.getLast? with
    | none => exact absurd (List.getLast?_eq_none_iff.mp hl) hne
    | some bar =>
      refine ⟨bar, ?_, List.mem_of_mem_getLast? hl,
        sorted_le_getLast bs bar hsorted hl, cacheWarningText_ne_nil _⟩
      simp only [getAnalysisWithCache, getCachedAnalysisOnly, hl]
  · intro hempty
    refine ⟨str "Rate limit exceeded and no cached data available", ?_, by decide⟩
    rcases hempty with h | h <;> subst h <;> rfl

/-- C4 witness: the fallback at a concrete sorted two-bar cache result
and at an empty cache result. -/
theorem c4_rate_limit_fallback_witness :
    (some [({ timestamp := 10, «open» := 1, high := 1, low := 1, close := 1
            , volume := 1 } : Bar),
           { timestamp := 20, «open» := 2, high := 2, low := 2, close := 2
           , volume := 2 }] =
        some [({ timestamp := 10, «open» := 1, high := 1, low := 1, close := 1
               , volume := 1 } : Bar),
              { timestamp := 20, «open» := 2, high := 2, low := 2, close := 2
              , volume := 2 }] ∧
      ([({ timestamp := 10, «open» := 1, high := 1, low := 1, close := 1
         , volume := 1 } : Bar),
        { timestamp := 20, «open» := 2, high := 2, low := 2, close := 2
        , volume := 2 }] : List Bar) ≠ [] ∧
      List.Sorted tsLe
        [({ timestamp := 10, «open» := 1, high := 1, low := 1, close := 1
          , volume := 1 } : Bar),
         { timestamp := 20, «open» := 2, high := 2, low := 2, close := 2
         , volume := 2 }]) ∧
    (∃ bar, getAnalysisWithCache (.error ())
        (some [({ timestamp := 10, «open» := 1, high := 1, low := 1, close := 1
                , volume := 1 } : Bar),
               { timestamp := 20, «open» := 2, high := 2, low := 2, close := 2
               , volume := 2 }]) 100 =
          .cached bar true (100 - bar.timestamp)
            (cacheWarningText (100 - bar.timestamp)) ∧
        bar ∈ [({ timestamp := 10, «open» := 1, high := 1, low := 1, close := 1
                , volume := 1 } : Bar),
               { timestamp := 20, «open» := 2, high := 2, low := 2, close := 2
               , volume := 2 }] ∧
        (∀ x ∈ [({ timestamp := 10, «open» := 1, high := 1, low := 1
                 , close := 1, volume := 1 } : Bar),
                { timestamp := 20, «open» := 2, high := 2, low := 2, close := 2
                , volume := 2 }], x.timestamp ≤ bar.timestamp) ∧
        cacheWarningText (100 - bar.timestamp) ≠ []) ∧
    (∃ msg : Str, getAnalysisWithCache (.error ()) none 100 =
        .errorResult msg true ∧ msg ≠ []) := by
  refine ⟨⟨rfl, by decide, by decide⟩, ?_, ?_⟩
  · exact (c4_rate_limit_fallback _ 100).1 _ rfl (by decide) (by decide)
  · exact (c4_rate_limit_fallback none 100).2 (Or.inl rfl)

/-! ## cache_manager.py : `aggregate_timeframe` -/

/-- `(bar.timestamp // target_seconds) * target_seconds` (`//` is
Python floor division, `Int.fdiv`). -/
def bucketStart (target_seconds ts : Int) : Int :=
  Int.fdiv ts target_seconds * target_seconds

/-- `CacheManager._aggregate_bars` on the nonempty group `g :: gs`:
`open` of the first bar, running max/min of highs/lows, `close` of the
last bar, running sum of volumes, the bucket floor as timestamp. -/
def aggBars (timestamp : Int) (g : Bar) (gs : List Bar) : Bar :=
  { timestamp := timestamp
  , «open» := g.«open»
  , high := (gs.map Bar.high).foldl max g.high
  , low := (gs.map Bar.low).foldl min g.low
  , close := ((g :: gs).getLast (List.cons_ne_nil g gs)).close
  , volume := (gs.map Bar.volume).foldl (· + ·) g.volume }

/-- The grouping loop of `aggregate_timeframe`: `current_group` is
`g :: gs` (nonempty by construction), `current_interval_start` is `s`;
a bar in the same bucket is appended, a bucket change flushes the
group through `_aggregate_bars`. -/
def aggLoop (target_seconds s : Int) (g : Bar) (gs : List Bar) :
    List Bar → List Bar
  | [] => [aggBars s g gs]
  | b :: rest =>
    if bucketStart target_seconds b.timestamp = s then
      aggLoop target_seconds s g (gs ++ [b]) rest
    else
      aggBars s g gs ::
        aggLoop target_seconds (bucketStart target_seconds b.timestamp) b [] rest

/-- `CacheManager.aggregate_timeframe`: iterate the grouping loop over
the timestamp-sorted source bars (the `except` branch is dead in this
pure model). -/
def aggregate_timeframe (source_bars : List Bar)
    (target_interval : Interval) : List Bar :=
  match sortByTs source_bars with
  | [] => []
  | b :: rest =>
    aggLoop (intervalSeconds target_interval)
      (bucketStart (intervalSeconds target_interval) b.timestamp) b [] rest

/-- `q` is the maximum of the values `l`. -/
def isMaxOf (q : ℚ) (l : List ℚ) : Prop := q ∈ l ∧ ∀ x ∈ l, x ≤ q

/-- `q` is the minimum of the values `l`. -/
def isMinOf (q : ℚ) (l : List ℚ) : Prop := q ∈ l ∧ ∀ x ∈ l, q ≤ x

theorem intervalSeconds_pos (i : Interval) : 0 < intervalSeconds i := by
  cases i <;> decide

theorem bucketStart_mono (tsec : Int) (h : 0 < tsec) (a b : Int)
    (hab : a ≤ b) : bucketStart tsec a ≤ bucketStart tsec b := by
  unfold bucketStart
  have h1 : Int.fdiv a tsec ≤ Int.fdiv b tsec := by
    rw [Int.fdiv_eq_ediv _ (le_of_lt h), Int.fdiv_eq_ediv _ (le_of_lt h)]
    exact Int.ediv_le_ediv h hab
  exact mul_le_mul_of_nonneg_right h1 (le_of_lt h)

theorem foldl_max_spec (l : List ℚ) : ∀ a : ℚ,
    (l.foldl max a = a ∨ l.foldl max a ∈ l) ∧
    a ≤ l.foldl max a ∧ ∀ x ∈ l, x ≤ l.foldl max a := by
  induction l with
  | nil =>
    intro a
    exact ⟨Or.inl rfl, le_refl a, by simp⟩
  | cons y ys ih =>
    intro a
    obtain ⟨hmem, hle, hall⟩ := ih (max a y)
    rw [List.foldl_cons]
    refine ⟨?_, ?_, ?_⟩
    · rcases hmem with h | h
      · rcases max_choice a y with hc | hc
        · exact Or.inl (by rw [h, hc])
        · exact Or.inr (by rw [h, hc]; exact List.mem_cons_self y ys)
      · exact Or.inr (List.mem_cons_of_mem y h)
    · exact le_trans (le_max_left a y) hle
    · intro x hx
      rcases List.mem_cons.mp hx with hx | hx
      · rw [hx]
        exact le_trans (le_max_right a y) hle
      · exact hall x hx

theorem foldl_min_spec (l : List ℚ) : ∀ a : ℚ,
    (l.foldl min a = a ∨ l.foldl min a ∈ l) ∧
    l.foldl min a ≤ a ∧ ∀ x ∈ l, l.foldl min a ≤ x := by
  induction l with
  | nil =>
    intro a
    exact ⟨Or.inl rfl, le_refl a, by simp⟩
  | cons y ys ih =>
    intro a
    obtain ⟨hmem, hle, hall⟩ := ih (min a y)
    rw [List.foldl_cons]
    refine ⟨?_, ?_, ?_⟩
    · rcases hmem with h | h
      · rcases min_choice a y with hc | hc
        · exact Or.inl (by rw [h, hc])
        · exact Or.inr (by rw [h, hc]; exact List.mem_cons_self y ys)
      · exact Or.inr (List.mem_cons_of_mem y h)
    · exact le_trans hle (min_le_left a y)
    · intro x hx
      rcases List.mem_cons.mp hx with hx | hx
      · rw [hx]
        exact le_trans hle (min_le_right a y)
      · exact hall x hx

theorem foldl_add_eq (l : List ℚ) : ∀ a : ℚ, l.foldl (· + ·) a = a + l.sum := by
  induction l with
  | nil =>
    intro a
    simp
  | cons y ys ih =>
    intro a
    rw [List.foldl_cons, ih, List.sum_cons]
    ring

theorem aggBars_fields (t : Int) (b : Bar) (bs : List Bar) :
    (aggBars t b bs).timestamp = t ∧
    (aggBars t b bs).«open» = b.«open» ∧
    isMaxOf (aggBars t b bs).high ((b :: bs).map Bar.high) ∧
    isMinOf (aggBars t b bs).low ((b :: bs).map Bar.low) ∧
    (aggBars t b bs).close =
      ((b :: bs).getLast (List.cons_ne_nil b bs)).close ∧
    (aggBars t b bs).volume = ((b :: bs).map Bar.volume).sum := by
  obtain ⟨hmem, hle, hall⟩ := foldl_max_spec (bs.map Bar.high) b.high
  obtain ⟨hmem', hle', hall'⟩ := foldl_min_spec (bs.map Bar.low) b.low
  refine ⟨rfl, rfl, ⟨?_, ?_⟩, ⟨?_, ?_⟩, rfl, ?_⟩
  · rw [List.map_cons]
    rcases hmem with h | h
    · rw [show (aggBars t b bs).high = (bs.map Bar.high).foldl max b.high
        from rfl, h]
      exact List.mem_cons_self _ _
    · exact List.mem_cons_of_mem _ h
  · intro x hx
    rw [List.map_cons] at hx
    rcases List.mem_cons.mp hx with hx | hx
    · rw [hx]
      exact hle
    · exact hall x hx
  · rw [List.map_cons]
    rcases hmem' with h | h
    · rw [show (aggBars t b bs).low = (bs.map Bar.low).foldl min b.low
        from rfl, h]
      exact List.mem_cons_self _ _
    · exact List.mem_cons_of_mem _ h
  · intro x hx
    rw [List.map_cons] at hx
    rcases List.mem_cons.mp hx with hx | hx
    · rw [hx]
      exact hle'
    · exact hall' x hx
  · rw [List.map_cons, List.sum_cons]
    exact foldl_add_eq (bs.map Bar.volume) b.volume

theorem aggBars_timestamp (t : Int) (g : Bar) (gs : List Bar) :
    (aggBars t g gs).timestamp = t := rfl

theorem aggLoop_nil_eq (tsec s : Int) (g : Bar) (gs : List Bar) :
    aggLoop tsec s g gs [] = [aggBars s g gs] := rfl

theorem aggLoop_cons_eq_same (tsec s : Int) (g b : Bar) (gs rest : List Bar)
    (hb : bucketStart tsec b.timestamp = s) :
    aggLoop tsec s g gs (b :: rest) = aggLoop tsec s g (gs ++ [b]) rest := by
  conv_lhs => unfold aggLoop
  rw [if_pos hb]

theorem aggLoop_cons_eq_new (tsec s : Int) (g b : Bar) (gs rest : List Bar)
    (hb : ¬ bucketStart tsec b.timestamp = s) :
    aggLoop tsec s g gs (b :: rest) =
      aggBars s g gs ::
        aggLoop tsec (bucketStart tsec b.timestamp) b [] rest := by
  conv_lhs => unfold aggLoop
  rw [if_neg hb]

theorem aggLoop_head (tsec : Int) (l : List Bar) :
    ∀ (s : Int) (g : Bar) (gs : List Bar),
    ∃ o tl, aggLoop tsec s g gs l = o :: tl ∧ o.timestamp = s := by
  induction l with
  | nil =>
    intro s g gs
    exact ⟨aggBars s g gs, [], rfl, rfl⟩
  | cons b rest ih =>
    intro s g gs
    by_cases hb : bucketStart tsec b.timestamp = s
    · obtain ⟨o, tl, heq, hts⟩ := ih s g (gs ++ [b])
      exact ⟨o, tl, by rw [aggLoop_cons_eq_same tsec s g b gs rest hb, heq], hts⟩
    · exact ⟨aggBars s g gs, _, aggLoop_cons_eq_new tsec s g b gs rest hb, rfl⟩

theorem sorted_tail_facts (b : Bar) (rest : List Bar)
    (hsorted : List.Sorted tsLe (b :: rest)) :
    List.Sorted tsLe rest ∧ ∀ x ∈ rest, b.timestamp ≤ x.timestamp := by
  rw [List.sorted_cons] at hsorted
  exact ⟨hsorted.2, hsorted.1⟩

theorem aggLoop_ts_ge (tsec : Int) (htsec : 0 < tsec) (l : List Bar) :
    ∀ (s : Int) (g : Bar) (gs : List Bar),
    List.Sorted tsLe l → (∀ x ∈ l, s ≤ bucketStart tsec x.timestamp) →
    ∀ o ∈ aggLoop tsec s g gs l, s ≤ o.timestamp := by
  induction l with
  | nil =>
    intro s g gs _ _ o ho
    rw [aggLoop_nil_eq, List.mem_singleton] at ho
    rw [ho, aggBars_timestamp]
  | cons b rest ih =>
    intro s g gs hsorted hge o ho
    obtain ⟨hsr, hble⟩ := sorted_tail_facts b rest hsorted
    by_cases hb : bucketStart tsec b.timestamp = s
    · rw [aggLoop_cons_eq_same tsec s g b gs rest hb] at ho
      refine ih s g (gs ++ [b]) hsr ?_ o ho
      intro x hx
      rw [← hb]
      exact bucketStart_mono tsec htsec _ _ (hble x hx)
    · rw [aggLoop_cons_eq_new tsec s g b gs rest hb] at ho
      rcases List.mem_cons.mp ho with h | h
      · rw [h, aggBars_timestamp]
      · have hsb : s ≤ bucketStart tsec b.timestamp :=
          hge b (List.mem_cons_self b rest)
        refine le_trans hsb (ih (bucketStart tsec b.timestamp) b [] hsr ?_ o h)
        intro x hx
        exact bucketStart_mono tsec htsec _ _ (hble x hx)

instance : IsTrans Bar (fun a b : Bar => a.timestamp < b.timestamp) :=
  ⟨fun _ _ _ h1 h2 => lt_trans h1 h2⟩

theorem aggLoop_chain (tsec : Int) (htsec : 0 < tsec) (l : List Bar) :
    ∀ (s : Int) (g : Bar) (gs : List Bar),
    List.Sorted tsLe l → (∀ x ∈ l, s ≤ bucketStart tsec x.timestamp) →
    List.Chain' (fun a b : Bar => a.timestamp < b.timestamp)
      (aggLoop tsec s g gs l) := by
  induction l with
  | nil =>
    intro s g gs _ _
    rw [aggLoop_nil_eq]
    exact List.chain'_singleton _
  | cons b rest ih =>
    intro s g gs hsorted hge
    obtain ⟨hsr, hble⟩ := sorted_tail_facts b rest hsorted
    by_cases hb : bucketStart tsec b.timestamp = s
    · rw [aggLoop_cons_eq_same tsec s g b gs rest hb]
      refine ih s g (gs ++ [b]) hsr ?_
      intro x hx
      rw [← hb]
      exact bucketStart_mono tsec htsec _ _ (hble x hx)
    · rw [aggLoop_cons_eq_new tsec s g b gs rest hb]
      obtain ⟨o, tl, heq, hts⟩ :=
        aggLoop_head tsec rest (bucketStart tsec b.timestamp) b []
      rw [heq]
      refine List.chain'_cons.mpr ⟨?_, ?_⟩
      · rw [aggBars_timestamp, hts]
        refine lt_of_le_of_ne (hge b (List.mem_cons_self b rest)) ?_
        exact fun he => hb he.symm
      · rw [← heq]
        refine ih (bucketStart tsec b.timestamp) b [] hsr ?_
        intro x hx
        exact bucketStart_mono tsec htsec _ _ (hble x hx)

theorem aggLoop_filter (tsec : Int) (htsec : 0 < tsec) (l : List Bar) :
    ∀ (s : Int) (g : Bar) (gs : List Bar),
    List.Sorted tsLe l →
    bucketStart tsec g.timestamp = s →
    (∀ x ∈ gs, bucketStart tsec x.timestamp = s) →
    (∀ x ∈ l, s ≤ bucketStart tsec x.timestamp) →
    ∀ o ∈ aggLoop tsec s g gs l,
      ∃ (b : Bar) (bs : List Bar),
        ((g :: gs) ++ l).filter
            (fun x => decide (bucketStart tsec x.timestamp = o.timestamp)) =
          b :: bs ∧
        o = aggBars o.timestamp b bs := by
  induction l with
  | nil =>
    intro s g gs _ hg hgs _ o ho
    rw [aggLoop_nil_eq, List.mem_singleton] at ho
    subst ho
    refine ⟨g, gs, ?_, rfl⟩
    rw [List.append_nil, aggBars_timestamp]
    refine List.filter_eq_self.mpr fun x hx => ?_
    rcases List.mem_cons.mp hx with hx | hx
    · rw [hx]
      exact decide_eq_true hg
    · exact decide_eq_true (hgs x hx)
  | cons b rest ih =>
    intro s g gs hsorted hg hgs hge o ho
    obtain ⟨hsr, hble⟩ := sorted_tail_facts b rest hsorted
    by_cases hb : bucketStart tsec b.timestamp = s
    · rw [aggLoop_cons_eq_same tsec s g b gs rest hb] at ho
      have hgs' : ∀ x ∈ gs ++ [b], bucketStart tsec x.timestamp = s := by
        intro x hx
        rcases List.mem_append.mp hx with hx | hx
        · exact hgs x hx
        · rw [List.mem_singleton.mp hx]
          exact hb
      have hge' : ∀ x ∈ rest, s ≤ bucketStart tsec x.timestamp := by
        intro x hx
        rw [← hb]
        exact bucketStart_mono tsec htsec _ _ (hble x hx)
      obtain ⟨b', bs', heqf, ho'⟩ := ih s g (gs ++ [b]) hsr hg hgs' hge' o ho
      have hll : (g :: (gs ++ [b])) ++ rest = (g :: gs) ++ (b :: rest) := by
        simp
      rw [hll] at heqf
      exact ⟨b', bs', heqf, ho'⟩
    · have hlt : s < bucketStart tsec b.timestamp :=
        lt_of_le_of_ne (hge b (List.mem_cons_self b rest)) fun he => hb he.symm
      rw [aggLoop_cons_eq_new tsec s g b gs rest hb] at ho
      rcases List.mem_cons.mp ho with h | h
      · subst h
        refine ⟨g, gs, ?_, rfl⟩
        rw [aggBars_timestamp, List.filter_append]
        have h1 : (g :: gs).filter
            (fun x => decide (bucketStart tsec x.timestamp = s)) = g :: gs := by
          refine List.filter_eq_self.mpr fun x hx => ?_
          rcases List.mem_cons.mp hx with hx | hx
          · rw [hx]
            exact decide_eq_true hg
          · exact decide_eq_true (hgs x hx)
        have h2 : (b :: rest).filter
            (fun x => decide (bucketStart tsec x.timestamp = s)) = [] := by
          refine List.filter_eq_nil_iff.mpr fun x hx => ?_
          have hxge : bucketStart tsec b.timestamp ≤
              bucketStart tsec x.timestamp := by
            rcases List.mem_cons.mp hx with hx | hx
            · rw [hx]
            · exact bucketStart_mono tsec htsec _ _ (hble x hx)
          simp only [decide_eq_true_eq]
          omega
        rw [h1, h2, List.append_nil]
      · have hge2 : ∀ x ∈ rest,
            bucketStart tsec b.timestamp ≤ bucketStart tsec x.timestamp := by
          intro x hx
          exact bucketStart_mono tsec htsec _ _ (hble x hx)
        obtain ⟨b', bs', heqf, ho'⟩ := ih (bucketStart tsec b.timestamp) b []
          hsr rfl (by simp) hge2 o h
        rw [List.singleton_append] at heqf
        refine ⟨b', bs', ?_, ho'⟩
        rw [List.filter_append, heqf]
        have hots : bucketStart tsec b.timestamp ≤ o.timestamp :=
          aggLoop_ts_ge tsec htsec rest (bucketStart tsec b.timestamp) b []
            hsr hge2 o h
        have h0 : (g :: gs).filter
            (fun x => decide (bucketStart tsec x.timestamp = o.timestamp)) = [] := by
          refine List.filter_eq_nil_iff.mpr fun x hx => ?_
          have hxs : bucketStart tsec x.timestamp = s := by
            rcases List.mem_cons.mp hx with hx | hx
            · rw [hx]
              exact hg
            · exact hgs x hx
          simp only [decide_eq_true_eq]
          omega
        rw [h0, List.nil_append]

theorem aggLoop_covers (tsec : Int) (htsec : 0 < tsec) (l : List Bar) :
    ∀ (s : Int) (g : Bar) (gs : List Bar),
    List.Sorted tsLe l →
    bucketStart tsec g.timestamp = s →
    (∀ x ∈ gs, bucketStart tsec x.timestamp = s) →
    (∀ x ∈ l, s ≤ bucketStart tsec x.timestamp) →
    ∀ x ∈ (g :: gs) ++ l, ∃ o ∈ aggLoop tsec s g gs l,
      o.timestamp = bucketStart tsec x.timestamp := by
  induction l with
  | nil =>
    intro s g gs _ hg hgs _ x hx
    rw [List.append_nil] at hx
    refine ⟨aggBars s g gs, by rw [aggLoop_nil_eq]; exact List.mem_singleton_self _, ?_⟩
    rw [aggBars_timestamp]
    rcases List.mem_cons.mp hx with hx | hx
    · rw [hx, hg]
    · rw [hgs x hx]
  | cons b rest ih =>
    intro s g gs hsorted hg hgs hge x hx
    obtain ⟨hsr, hble⟩ := sorted_tail_facts b rest hsorted
    by_cases hb : bucketStart tsec b.timestamp = s
    · rw [aggLoop_cons_eq_same tsec s g b gs rest hb]
      have hgs' : ∀ y ∈ gs ++ [b], bucketStart tsec y.timestamp = s := by
        intro y hy
        rcases List.mem_append.mp hy with hy | hy
        · exact hgs y hy
        · rw [List.mem_singleton.mp hy]
          exact hb
      have hge' : ∀ y ∈ rest, s ≤ bucketStart tsec y.timestamp := by
        intro y hy
        rw [← hb]
        exact bucketStart_mono tsec htsec _ _ (hble y hy)
      refine ih s g (gs ++ [b]) hsr hg hgs' hge' x ?_
      have : x ∈ (g :: gs) ++ (b :: rest) ↔ x ∈ (g :: (gs ++ [b])) ++ rest := by
        simp only [List.mem_append, List.mem_cons, List.mem_singleton,
          List.mem_append]
        tauto
      exact this.mp hx
    · rw [aggLoop_cons_eq_new tsec s g b gs rest hb]
      have hmemx := List.mem_append.mp hx
      rcases hmemx with hx1 | hx2
      · refine ⟨aggBars s g gs, List.mem_cons_self _ _, ?_⟩
        rw [aggBars_timestamp]
        rcases List.mem_cons.mp hx1 with h | h
        · rw [h, hg]
        · rw [hgs x h]
      · have hge2 : ∀ y ∈ rest,
            bucketStart tsec b.timestamp ≤ bucketStart tsec y.timestamp := by
          intro y hy
          exact bucketStart_mono tsec htsec _ _ (hble y hy)
        obtain ⟨o, ho, hots⟩ := ih (bucketStart tsec b.timestamp) b [] hsr rfl
          (by simp) hge2 x (by
            rw [List.singleton_append]
            exact hx2)
        exact ⟨o, List.mem_cons_of_mem _ ho, hots⟩

/-! ## C5 -/

/-- C5: `aggregate_timeframe` buckets the source bars by
`floor(timestamp / target_seconds) * target_seconds` and emits, per
nonempty bucket in strictly ascending timestamp order, exactly one bar
whose timestamp is the bucket floor, whose open/close come from the
bucket's first/last bar (in timestamp-sorted order), whose high/low are
the bucket's extrema and whose volume is the bucket's volume sum; empty
input yields empty output. -/
theorem c5_aggregate (source_bars : List Bar) (target_interval : Interval) :
    (source_bars = [] →
      aggregate_timeframe source_bars target_interval = []) ∧
    List.Pairwise (fun a b : Bar => a.timestamp < b.timestamp)
      (aggregate_timeframe source_bars target_interval) ∧
    (∀ x ∈ source_bars,
      ∃ o ∈ aggregate_timeframe source_bars target_interval,
        o.timestamp =
          bucketStart (intervalSeconds target_interval) x.timestamp) ∧
    (∀ o ∈ aggregate_timeframe source_bars target_interval,
      ∃ (b : Bar) (bs : List Bar),
        (sortByTs source_bars).filter
            (fun x => decide (bucketStart (intervalSeconds target_interval)
              x.timestamp = o.timestamp)) = b :: bs ∧
        o.timestamp =
          bucketStart (intervalSeconds target_interval) b.timestamp ∧
        o.«open» = b.«open» ∧
        isMaxOf o.high ((b :: bs).map Bar.high) ∧
        isMinOf o.low ((b :: bs).map Bar.low) ∧
        o.close = ((b :: bs).getLast (List.cons_ne_nil b bs)).close ∧
        o.volume = ((b :: bs).map Bar.volume).sum) := by
  set tsec := intervalSeconds target_interval with htsecdef
  have htsec : 0 < tsec := intervalSeconds_pos target_interval
  cases hsort : sortByTs source_bars with
  | nil =>
    have hag : aggregate_timeframe source_bars target_interval = [] := by
      unfold aggregate_timeframe
      rw [hsort]
    have hsrc : source_bars = [] := by
      have := perm_sortByTs source_bars
      rw [hsort] at this
      exact (List.Perm.nil_eq this).symm
    rw [hag]
    refine ⟨fun _ => rfl, List.Pairwise.nil, ?_, ?_⟩
    · intro x hx
      rw [hsrc] at hx
      simp at hx
    · intro o ho
      simp at ho
  | cons b0 rest =>
    have hag : aggregate_timeframe source_bars target_interval =
        aggLoop tsec (bucketStart tsec b0.timestamp) b0 [] rest := by
      unfold aggregate_timeframe
      rw [hsort]
    have hsorted : List.Sorted tsLe (b0 :: rest) := by
      rw [← hsort]
      exact sorted_sortByTs source_bars
    obtain ⟨hsr, hble⟩ := sorted_tail_facts b0 rest hsorted
    have hge : ∀ x ∈ rest,
        bucketStart tsec b0.timestamp ≤ bucketStart tsec x.timestamp :=
      fun x hx => bucketStart_mono tsec htsec _ _ (hble x hx)
    rw [hag]
    refine ⟨?_, ?_, ?_, ?_⟩
    · intro hsrc
      rw [hsrc] at hsort
      exact absurd hsort (by simp [sortByTs])
    · rw [List.chain'_iff_pairwise.symm]
      exact aggLoop_chain tsec htsec rest (bucketStart tsec b0.timestamp)
        b0 [] hsr hge
    · intro x hx
      have hx' : x ∈ (b0 :: ([] : List Bar)) ++ rest := by
        rw [List.singleton_append, ← hsort, mem_sortByTs]
        exact hx
      
      exact aggLoop_covers tsec htsec rest (bucketStart tsec b0.timestamp)
        b0 [] hsr rfl (by simp) hge x hx'
    · intro o ho
      obtain ⟨b, bs, heqf, ho'⟩ := aggLoop_filter tsec htsec rest
        (bucketStart tsec b0.timestamp) b0 [] hsr rfl (by simp) hge o ho
      rw [List.singleton_append] at heqf
      refine ⟨b, bs, heqf, ?_, ?_, ?_, ?_, ?_, ?_⟩
      · have hbmem : b ∈ (b0 :: rest).filter
            (fun x => decide (bucketStart tsec x.timestamp = o.timestamp)) := by
          rw [heqf]
          exact List.mem_cons_self b bs
        have := (List.mem_filter.mp hbmem).2
        exact (of_decide_eq_true this).symm
      · rw [ho']
        exact (aggBars_fields o.timestamp b bs).2.1
      · have h := (aggBars_fields o.timestamp b bs).2.2.1
        rw [← ho'] at h
        exact h
      · have h := (aggBars_fields o.timestamp b bs).2.2.2.1
        rw [← ho'] at h
        exact h
      · rw [ho']
        exact (aggBars_fields o.timestamp b bs).2.2.2.2.1
      · rw [ho']
        exact (aggBars_fields o.timestamp b bs).2.2.2.2.2

/-- Twelve consecutive 5-minute bars spanning one hour (the spec's
aggregation example). -/
def twelveFiveMinuteBars : List Bar :=
  (List.range 12).map fun i =>
    { timestamp := 300 * (i : Int), «open» := (i : ℚ), high := (i : ℚ)
    , low := (i : ℚ), close := (i : ℚ), volume := 1 }

set_option maxRecDepth 8000 in
/-- C5 witness: aggregating the twelve 5-minute bars into the 1-hour
timeframe yields one bar with the first open, last close, the extrema
and the volume sum, and the per-bucket clause of the theorem holds. -/
theorem c5_aggregate_witness :
    ((aggregate_timeframe twelveFiveMinuteBars Interval.oneHour).map
        Bar.timestamp = [0] ∧
      (aggregate_timeframe twelveFiveMinuteBars Interval.oneHour).map
        Bar.«open» = [0] ∧
      (aggregate_timeframe twelveFiveMinuteBars Interval.oneHour).map
        Bar.high = [11] ∧
      (aggregate_timeframe twelveFiveMinuteBars Interval.oneHour).map
        Bar.low = [0] ∧
      (aggregate_timeframe twelveFiveMinuteBars Interval.oneHour).map
        Bar.close = [11]) ∧
    (∀ o ∈ aggregate_timeframe twelveFiveMinuteBars Interval.oneHour,
      ∃ (b : Bar) (bs : List Bar),
        (sortByTs twelveFiveMinuteBars).filter
            (fun x => decide (bucketStart (intervalSeconds Interval.oneHour)
              x.timestamp = o.timestamp)) = b :: bs ∧
        o.timestamp =
          bucketStart (intervalSeconds Interval.oneHour) b.timestamp ∧
        o.«open» = b.«open» ∧
        isMaxOf o.high ((b :: bs).map Bar.high) ∧
        isMinOf o.low ((b :: bs).map Bar.low) ∧
        o.close = ((b :: bs).getLast (List.cons_ne_nil b bs)).close ∧
        o.volume = ((b :: bs).map Bar.volume).sum) :=
  ⟨by decide, (c5_aggregate twelveFiveMinuteBars Interval.oneHour).2.2.2⟩

/-! ## Helper lemmas: splitting -/

theorem splitOnChar_of_not_mem (c : Char) (s : Str) (h : c ∉ s) :
    splitOnChar c s = [s] := by
  induction s with
  | nil => rfl
  | cons a rest ih =>
    have ha : ¬ a = c := by
      intro hac
      exact h (hac ▸ List.mem_cons_self a rest)
    have hrest : c ∉ rest := fun hm => h (List.mem_cons_of_mem a hm)
    simp only [splitOnChar, if_neg ha, ih hrest]

theorem splitOnChar_append (c : Char) (a r : Str) (h : c ∉ a) :
    splitOnChar c (a ++ c :: r) = a :: splitOnChar c r := by
  induction a with
  | nil => simp [splitOnChar]
  | cons x xs ih =>
    have hx : ¬ x = c := by
      intro hxc
      exact h (hxc ▸ List.mem_cons_self x xs)
    have hxs : c ∉ xs := fun hm => h (List.mem_cons_of_mem x hm)
    simp only [List.cons_append, splitOnChar, if_neg hx, List.append_eq, ih hxs]

theorem interval_value_no_colon (i : Interval) : ':' ∉ i.value := by
  cases i <;> decide

theorem ofValue_value (i : Interval) : Interval.ofValue i.value = some i := by
  cases i <;> rfl

/-! ## C9 and C10 -/

/-- C9 (counterexample): the claimed round-trip `parse(serialize(k)) == k`
fails for the explicit key (symbol `"A:B"`, screener `"crypto"`,
exchange `"X"`, interval `1d`): serialization embeds the symbol's colon,
so parsing splits into five parts and raises `ValueError` (`none`). -/
theorem c9_roundtrip_counterexample :
    ¬ (CacheKey.fromStr
        (CacheKey.toStr
          { symbol := str "A:B", screener := str "crypto"
          , exchange := str "X", interval := Interval.oneDay }) =
      some { symbol := str "A:B", screener := str "crypto"
           , exchange := str "X", interval := Interval.oneDay }) := by
  decide

/-- C9 (amended): for every `CacheKey` whose screener, exchange and
symbol contain no `':'`, parsing the canonical string form produced by
serialization yields the key back: `fromStr (toStr k) = some k`. -/
theorem c9_roundtrip (k : CacheKey)
    (h1 : ':' ∉ k.screener) (h2 : ':' ∉ k.exchange) (h3 : ':' ∉ k.symbol) :
    CacheKey.fromStr (CacheKey.toStr k) = some k := by
  unfold CacheKey.toStr CacheKey.fromStr
  rw [splitOnChar_append ':' k.screener _ h1]
  rw [splitOnChar_append ':' k.exchange _ h2]
  rw [splitOnChar_append ':' k.symbol _ h3]
  rw [splitOnChar_of_not_mem ':' k.interval.value (interval_value_no_colon k.interval)]
  simp [ofValue_value]

/-- C9 witness: the amended round-trip at a concrete colon-free key. -/
theorem c9_roundtrip_witness :
    (':' ∉ str "crypto" ∧ ':' ∉ str "BINANCE" ∧ ':' ∉ str "BTCUSD") ∧
    CacheKey.fromStr
        (CacheKey.toStr
          { symbol := str "BTCUSD", screener := str "crypto"
          , exchange := str "BINANCE", interval := Interval.fiveMinutes }) =
      some { symbol := str "BTCUSD", screener := str "crypto"
           , exchange := str "BINANCE", interval := Interval.fiveMinutes } :=
  ⟨⟨by decide, by decide, by decide⟩,
    c9_roundtrip _ (by decide) (by decide) (by decide)⟩

/-- C10: every interval string missing from `STRING_INTERVAL_MAP` (in
particular the enum's own lowercase weekly value `"1w"`, since the map
only has the `"1W"` key) is silently resolved to the one-day interval,
which is then used both for the cache key and for the provider call. -/
theorem c10_interval_fallback :
    (∀ s : Str, lookupStr s STRING_INTERVAL_MAP = none →
      ∀ symbol screener exchange : Str,
        (requestCacheKey symbol screener exchange s).interval = Interval.oneDay ∧
        providerInterval s = TVInterval.oneDay) ∧
    lookupStr (str "1w") STRING_INTERVAL_MAP = none ∧
    Interval.oneWeek.value = str "1w" := by
  refine ⟨fun s hs symbol screener exchange => ?_, by decide, by decide⟩
  constructor
  · simp [requestCacheKey, resolveIntervalString, hs]
  · simp [providerInterval, resolveIntervalString, hs, TV_INTERVAL_MAP]

/-- C10 witness: the fallback at the concrete request string `"1w"`. -/
theorem c10_interval_fallback_witness :
    lookupStr (str "1w") STRING_INTERVAL_MAP = none ∧
    (requestCacheKey (str "BTCUSD") (str "crypto") (str "BINANCE")
        (str "1w")).interval = Interval.oneDay ∧
    providerInterval (str "1w") = TVInterval.oneDay := by
  have h := c10_interval_fallback.1 (str "1w") (by decide)
    (str "BTCUSD") (str "crypto") (str "BINANCE")
  exact ⟨by decide, h.1, h.2⟩

end MarketAnalyzer
